import Mathlib

/-!
Verification development for `convert.py` of the `mediawiki_to_git_md`
repository: a shallow embedding of its data model and operations into Lean,
together with theorems settling the specification's testable properties.

Python strings are embedded as `List Char` (`Str`); Python string methods
(`strip`, `replace`, `index`, `in`, `startswith`, ...) are re-implemented
faithfully below.  Fallible Python code (uncaught exceptions: `assert`,
`ValueError` from `str.index`, attribute errors on `None`) is embedded with
`Option`, `none` marking the raised exception.
-/

/-- Python strings are modelled as lists of characters; UTF-8 byte order on
encoded strings coincides with code-point order, so lexicographic comparison
of `List Char` matches SQLite's BINARY collation on the stored text. -/
abbrev Str := List Char

/-- Characters stripped by Python's `str.strip()` (ASCII whitespace). -/
def pyIsSpace (c : Char) : Bool :=
  c = ' ' || c = '\t' || c = '\n' || c = '\r' || c = Char.ofNat 11 || c = Char.ofNat 12

/-- Python `str.lstrip()`. -/
def pyLStrip (l : Str) : Str := l.dropWhile pyIsSpace

/-- Python `str.rstrip()`. -/
def pyRStrip (l : Str) : Str := (l.reverse.dropWhile pyIsSpace).reverse

/-- Python `str.strip()`. -/
def pyStrip (l : Str) : Str := pyRStrip (pyLStrip l)

/-- Python `str.lower()` (ASCII case folding suffices for the source's uses). -/
def pyLower (l : Str) : Str := l.map Char.toLower

/-- Python `pat in l` for strings: substring containment test. -/
def isInfixB (pat : Str) : Str → Bool
  | [] => pat.isPrefixOf []
  | c :: cs => pat.isPrefixOf (c :: cs) || isInfixB pat cs

/-- Python `l.index(pat)` / `l.find(pat)`: index of the first occurrence of
substring `pat` in `l` (`none` models the `ValueError` raised by `index`). -/
def indexOfSub (pat : Str) : Str → Option Nat
  | [] => if pat.isPrefixOf [] then some 0 else none
  | c :: cs =>
    if pat.isPrefixOf (c :: cs) then some 0
    else (indexOfSub pat cs).map (· + 1)

/-- Fuel-driven worker for `replaceAll`; the fuel only serves structural
termination and is irrelevant once it reaches the input length. -/
def replaceAllF (pat rep : Str) : Nat → Str → Str
  | _, [] => []
  | 0, l => l
  | fuel + 1, c :: cs =>
    if pat ≠ [] ∧ pat.isPrefixOf (c :: cs) then
      rep ++ replaceAllF pat rep fuel (cs.drop (pat.length - 1))
    else
      c :: replaceAllF pat rep fuel cs

/-- Python `l.replace(pat, rep)` for a nonempty `pat`: replace every
non-overlapping occurrence, scanning left to right.  (For `pat = []` the
guard fails and the input is returned unchanged; the source never calls
`replace` with an empty pattern.) -/
def replaceAll (pat rep l : Str) : Str := replaceAllF pat rep l.length l

/-- Python `text.split("\n")`. -/
def splitNl : Str → List Str
  | [] => [[]]
  | c :: cs =>
    if c = '\n' then [] :: splitNl cs
    else
      match splitNl cs with
      | [] => [[c]]
      | h :: t => (c :: h) :: t

/-- Python `"\n".join(lines)`. -/
def joinNl : List Str → Str
  | [] => []
  | [l] => l
  | l :: l' :: ls => l ++ '\n' :: joinNl (l' :: ls)

/-- Python `l[:-n]` (for `n ≤ len l`; slicing clamps, as does `take`). -/
def dropLastN (n : Nat) (l : Str) : Str := l.take (l.length - n)

/-- Python `os.path.join(a, b)` (POSIX semantics, two components). -/
def pyJoin (a b : Str) : Str :=
  if ('/' :: []).isPrefixOf b then b
  else if a = [] then a ++ b
  else if a.getLast? = some '/' then a ++ b
  else a ++ ('/' :: []) ++ b

/-- Python `"%s" % v` for a value that may be `None`. -/
def pyShow (v : Option Str) : Str :=
  match v with
  | some x => x
  | none => "None".data

/-!
Embedding of the pure text-processing functions of `convert.py`:
`un_div`, `cleanup_mediawiki`, `cleanup_markdown`, `clean_tag`,
`make_canonical`, `make_url`, `make_filename`, `ignore_by_prefix` (spelt
`ignore_by_pfx` here), `safe_for_yaml`.
-/

/-- Source `un_div`: remove a wrapping `<div...>text</div>`, leaving the
(stripped) text.  `none` models the uncaught `ValueError` from
`text.index(">")` when the sliced string has no `>`. -/
def un_div (text : Str) : Option Str :=
  let t := pyStrip text
  if ("<div ".data.isPrefixOf t ∧ "</div>".data.isSuffixOf t) then
    let t2 := dropLastN 6 t
    match indexOfSub ">".data t2 with
    | none => none
    | some i => some (pyStrip (t2.drop (i + 1)))
  else some text

/-- The fixed language list of `cleanup_mediawiki`. -/
def langNames : List Str :=
  ["python".data, "perl".data, "sql".data, "bash".data, "ruby".data,
   "java".data, "xml".data]

/-- First half of the per-language rewrite in `cleanup_mediawiki`
(the `<lang>` / `<lang ...>` opening-tag forms). -/
def langStep1 (lang line : Str) : Str :=
  if ('<' :: lang ++ ['>']).isPrefixOf (pyLower line) then
    pyStrip (("<source lang=".data ++ lang ++ ['\n']) ++ line.drop (lang.length + 2))
  else if ('<' :: lang ++ [' ']).isPrefixOf line ∧ isInfixB ['>'] line then
    pyStrip (("<source lang=".data ++ lang ++ [' ']) ++ line.drop (lang.length + 2))
  else line

/-- Second half of the per-language rewrite (`</lang>` closing-tag forms). -/
def langStep2 (lang line : Str) : Str :=
  if pyRStrip line = ("</".data ++ lang ++ ['>']) then
    "</source>".data
  else if ("</".data ++ lang ++ ['>']).isSuffixOf (pyRStrip line) then
    replaceAll ("</".data ++ lang ++ ['>']) ('\n' :: "</source>".data) line
  else line

/-- The LEFT-TO-RIGHT mark (U+200E) stripped by `cleanup_mediawiki`. -/
def ltrChar : Char := Char.ofNat 0x200E

/-- One iteration of the `for lang in languages` body of `cleanup_mediawiki`. -/
def langStep (lang line : Str) : Str := langStep2 lang (langStep1 lang line)

/-- The whole `for lang in languages` loop. -/
def langLoop (line : Str) : Str :=
  langNames.foldl (fun l lang => langStep lang l) line

/-- The three table-of-contents control tokens dropped by `cleanup_mediawiki`. -/
def tocTokens : List Str :=
  ["__TOC__".data, "__FORCETOC__".data, "__NOTOC__".data]

/-- Tail of the category block of `cleanup_mediawiki` once the tag has been
sliced out: re-verify the inferred construct occurs in the line (the
`assert`; `none` models the uncaught `AssertionError`), remove-and-strip,
drop the line when it became empty. -/
def categoryStepTag (line tag : Str) : Option (Option Str × List Str) :=
  if isInfixB ("[[Category:".data ++ tag ++ "]]".data) line then
    if pyStrip (replaceAll ("[[Category:".data ++ tag ++ "]]".data) [] line) = [] then
      some (none, [tag])
    else
      some (some (pyStrip (replaceAll ("[[Category:".data ++ tag ++ "]]".data) [] line)),
        [tag])
  else none

/-- Middle of the category block: slice the tag as `line[i+11:]` cut at the
first `]]`; a missing `]]` raises `ValueError`, which the source catches and
ignores (`except ... pass`), leaving the line unchanged. -/
def categoryStepCore (line : Str) (i : Nat) : Option (Option Str × List Str) :=
  match indexOfSub "]]".data (line.drop (i + 11)) with
  | none =>
    if line = [] then some (none, []) else some (some line, [])
  | some j => categoryStepTag line ((line.drop (i + 11)).take j)

/-- The `if "[[Category:" in line:` block of `cleanup_mediawiki`: returns
`some (kept-line?, tags)` where the line component is `none` when the line
is dropped (`if not line: continue`). -/
def categoryStep (line : Str) : Option (Option Str × List Str) :=
  if isInfixB "[[Category:".data line then
    match indexOfSub "[[Category:".data line with
    | none => none
    | some i => categoryStepCore line i
  else some (some line, [])

/-- The `[[:Category:` escaping step of `cleanup_mediawiki`. -/
def colonCategoryStep (l : Str) : Str :=
  if isInfixB "[[:Category:".data l then
    replaceAll "[[:Category:".data "[[Category%3A".data l
  else l

/-- The `[[User:` escaping step of `cleanup_mediawiki`. -/
def userStep (l : Str) : Str :=
  if isInfixB "[[User:".data l then
    replaceAll "[[User:".data "[[User%3A".data l
  else l

/-- Category extraction followed by the two escaping steps. -/
def cleanLineCat (line3 : Str) : Option (Option Str × List Str) :=
  match categoryStep line3 with
  | none => none
  | some (none, cats) => some (none, cats)
  | some (some line4, cats) => some (some (userStep (colonCategoryStep line4)), cats)

/-- Tail of the per-line body after `un_div`: drop TOC tokens, unwrap
div-wrapped image links, then run the category and escaping steps. -/
def cleanLineTail (line2 undiv : Str) : Option (Option Str × List Str) :=
  if undiv ∈ tocTokens then some (none, [])
  else
    cleanLineCat
      (if "[[Image:".data.isPrefixOf undiv ∧ "]]".data.isSuffixOf undiv then undiv
       else line2)

/-- The per-line body of `cleanup_mediawiki`'s main loop.  `some (none, cs)`
means the line was dropped (`continue`); `some (some l, cs)` means `l` is
appended to the output; `none` is an uncaught exception. -/
def cleanLine (line0 : Str) : Option (Option Str × List Str) :=
  match un_div (langLoop (replaceAll [ltrChar] [] line0)) with
  | none => none
  | some undiv => cleanLineTail (langLoop (replaceAll [ltrChar] [] line0)) undiv

/-- Accumulation step of `cleanup_mediawiki`'s loop over lines. -/
def cleanStep (acc : List Str × List Str) (line : Str) :
    Option (List Str × List Str) :=
  match cleanLine line with
  | none => none
  | some r =>
    some (acc.1 ++ (match r.1 with | some l => [l] | none => []), acc.2 ++ r.2)

/-- Source `cleanup_mediawiki`: returns the cleaned text and the list of
extracted category labels (first-seen order). -/
def cleanup_mediawiki (text : Str) : Option (Str × List Str) :=
  match (splitNl text).foldlM cleanStep ([], []) with
  | none => none
  | some res => some (joinNl res.1, res.2)

/-- Fuel-driven worker for `clean_tag`. -/
def cleanTagF : Nat → Str → Str
  | 0, t => t
  | fuel + 1, t =>
    match indexOfSub [Char.ofNat 125] t with
    | none => t
    | some i => cleanTagF fuel (t.drop (i + 1))

/-- Source `clean_tag`: repeatedly drop everything through the first
closing-brace character (XML namespace cleanup). -/
def clean_tag (t : Str) : Str := cleanTagF t.length t

/-- Source `make_canonical`: spaces to underscores, first letter upper case,
remainder lower case.  `none` models the `IndexError` on an empty title. -/
def make_canonical (title : Str) : Option Str :=
  match replaceAll [' '] ['_'] title with
  | [] => none
  | c :: cs => some (c.toUpper :: pyLower cs)

/-- Source `make_url`: spaces to underscores, path-prefix join, trailing
slash. -/
def make_url (title pfx : Str) : Str :=
  pyJoin pfx (replaceAll [' '] ['_'] title ++ ['/'])

/-- Source `make_filename`: spaces, colons and slashes to underscores, add
the extension, under the path prefix. -/
def make_filename (title ext pfx : Str) : Str :=
  pyJoin pfx
    (replaceAll ['/'] ['_'] (replaceAll [':'] ['_'] (replaceAll [' '] ['_'] title))
      ++ '.' :: ext)

/-- Source `ignore_by_prefix` (renamed): does the title start with one of the
excluded namespace prefixes? -/
def ignore_by_pfx (title : Str) (pfxs : List Str) : Bool :=
  pfxs.any (fun p => p.isPrefixOf title)

/-- Source `safe_for_yaml`: escape double quotes and apostrophes, wrap the
value in double quotes. -/
def safe_for_yaml (val : Str) : Str :=
  Char.ofNat 34 ::
    replaceAll [Char.ofNat 39] [Char.ofNat 92, Char.ofNat 39]
      (replaceAll [Char.ofNat 34] [Char.ofNat 92, Char.ofNat 34] val)
    ++ [Char.ofNat 34]

/-- The fixed `page_prefixes_to_ignore` list of `main`. -/
def pagePrefixesToIgnore : List Str :=
  ["Help:".data, "MediaWiki:".data, "Talk:".data, "User:".data,
   "User talk:".data]

/-- Is `c` in the regex class `[A-Z]`? -/
def isUpperAZ (c : Char) : Bool := 65 ≤ c.toNat && c.toNat ≤ 90

/-- The literal tail of the wikilink regex: a space, a quoted `wikilink`,
and a closing parenthesis (12 characters). -/
def wlTail : Str := " \"wikilink\")".data

/-- Greedy extent of `.*` in the regex at some position: the largest `j`
such that the first `j` characters contain no newline and the literal tail
matches right after them.  `none` when no extent matches. -/
def greedyLen (rest : Str) : Option Nat :=
  ((List.range (rest.length + 1)).filter
    (fun j => (rest.take j).all (fun c => c ≠ '\n') && wlTail.isPrefixOf (rest.drop j))).getLast?

/-- Attempt to match the regex `]\([A-Z].* "wikilink"\)` at the head of the
string; on success return the matched substring and the remainder of the
string after the match. -/
def reMatchAt : Str → Option (Str × Str)
  | c0 :: c1 :: c :: rest =>
    if c0 = ']' ∧ c1 = '(' ∧ isUpperAZ c then
      match greedyLen rest with
      | some j => some (c0 :: c1 :: c :: (rest.take j ++ wlTail), rest.drop (j + 12))
      | none => none
    else none
  | _ => none

/-- Fuel-driven worker for `reFindall`. -/
def reFindallF : Nat → Str → List Str
  | 0, _ => []
  | fuel + 1, l =>
    match l with
    | [] => []
    | c :: cs =>
      match reMatchAt (c :: cs) with
      | some (m, rest) => m :: reFindallF fuel rest
      | none => reFindallF fuel cs

/-- Python `re.findall` for the pattern `]\([A-Z].* "wikilink"\)`:
left-to-right scan, non-overlapping matches, resuming after each match. -/
def reFindall (l : Str) : List Str := reFindallF l.length l

/-- The rewrite loop of `cleanup_markdown` as written in the source,
including the `startswith(("](http", "](ftp:", "](mailto:"))` skip branch. -/
def applyMatchesSkip (pfx : Str) (ms : List Str) (text : Str) : Str :=
  ms.foldl
    (fun t old =>
      if "](http".data.isPrefixOf old ∨ "](ftp:".data.isPrefixOf old
          ∨ "](mailto:".data.isPrefixOf old then t
      else replaceAll old ("](/".data ++ pfx ++ old.drop 2) t)
    text

/-- The same rewrite loop with the skip branch removed (for the
unreachability statement of the skip branch). -/
def applyMatchesPlain (pfx : Str) (ms : List Str) (text : Str) : Str :=
  ms.foldl
    (fun t old => replaceAll old ("](/".data ++ pfx ++ old.drop 2) t)
    text

/-- Source `cleanup_markdown`: post-process pandoc output, re-rooting
internal wikilinks of nested pages at the site prefix.  `none` models the
uncaught `AssertionError` on a malformed prefix/source pair. -/
def cleanup_markdown (text source_url pfx : Str) : Option Str :=
  match
    (if pfx ≠ [] then
      if "/".data.isSuffixOf pfx ∧ pfx.isPrefixOf source_url
          ∧ ¬ "/".data.isPrefixOf pfx then
        some (source_url.drop pfx.length)
      else none
    else some source_url) with
  | none => none
  | some source =>
    if ¬ isInfixB "/".data source then some text
    else if pfx = [] then some text
    else some (applyMatchesSkip pfx (reFindall text) text)

/-- Variant of `cleanup_markdown` whose rewrite loop omits the skip branch;
used to state that the skip branch is unreachable. -/
def cleanup_markdown_noskip (text source_url pfx : Str) : Option Str :=
  match
    (if pfx ≠ [] then
      if "/".data.isSuffixOf pfx ∧ pfx.isPrefixOf source_url
          ∧ ¬ "/".data.isPrefixOf pfx then
        some (source_url.drop pfx.length)
      else none
    else some source_url) with
  | none => none
  | some source =>
    if ¬ isInfixB "/".data source then some text
    else if pfx = [] then some text
    else some (applyMatchesPlain pfx (reFindall text) text)

/-!
Data model: one row of the `revisions` table (the Staging Store), the
external-effect event trace, the missing-user tally, and the run context
(command-line arguments plus the external collaborators: pandoc and the
base64 decoder, both opaque).
-/

/-- One row of the `revisions` table: `(title, filename, date, username,
content, comment)`.  Optional fields are SQL `NULL` / Python `None`. -/
structure Record where
  title : Str
  filename : Option Str
  date : Option Str
  username : Str
  content : Option Str
  comment : Str
deriving DecidableEq, Repr

/-- Externally visible effects of the commit-emission pipeline. -/
inductive Ev
  | write (path content : Str)
  | pandocRun (path input : Str)
  | gitAdd (files : List Str)
  | gitCommit (files : List Str) (author date comment : Str)
  | gitReset
deriving DecidableEq, Repr

/-- The `missing_users` tally, a mapping with default count 0. -/
abbrev Tally := Str → Nat

/-- Run context: argument values of `main` plus the two opaque external
collaborators (pandoc, modelled by its exit code and standard output on the
cleaned text; and the base64 decoder for upload payloads).  The
version-control tool is modelled as always succeeding (a non-zero git exit
aborts the whole run in the source). -/
structure Ctx where
  pandoc : Str → Nat × Str
  b64decode : Str → Option Str
  pfx : Str
  mwExt : Str
  mdExt : Str
  defaultLayout : Str
  defaultEmail : Str
  userMapping : List (Str × Str)
  pfxsToIgnore : List Str

/-- Authorship resolution, lines 565-575 of `commit_files`: mapped identity
verbatim; unmapped non-empty username formatted with the default email and
tallied; empty username becomes the anonymous contributor. -/
def resolveAuthor (username : Str) (mapping : List (Str × Str)) (email : Str)
    (tally : Tally) : Str × Tally :=
  match mapping.lookup username with
  | some author => (author, tally)
  | none =>
    if username ≠ [] then
      (username ++ " <".data ++ email ++ ['>'],
       fun v => if v = username then tally v + 1 else tally v)
    else
      ("Anonymous Contributor <".data ++ email ++ ['>'], tally)

/-- Source `commit_files`: add the files, resolve authorship, commit with
the record's date and comment.  `none` models the `AssertionError` on an
empty file list and the crash on a `None` date. -/
def commit_files (ctx : Ctx) (filenames : List Str) (username : Str)
    (date : Option Str) (comment : Str) (tally : Tally) :
    Option (List Ev × Tally) :=
  if filenames = [] then none
  else
    let at2 := resolveAuthor username ctx.userMapping ctx.defaultEmail tally
    let comment2 := if comment = [] then "No comment".data else comment
    match date with
    | none => none
    | some d =>
      some ([Ev.gitAdd filenames, Ev.gitCommit filenames at2.1 d comment2], at2.2)

/-- Source `commit_revision`: comment fallback, then commit the rendered
and raw files together. -/
def commit_revision (ctx : Ctx) (mw_filename md_filename : Str)
    (username : Str) (date : Option Str) (comment : Str) (tally : Tally) :
    Option (List Ev × Tally) :=
  let comment2 := if comment = [] then "Change to wiki page".data else comment
  commit_files ctx [md_filename, mw_filename] username date comment2 tally

/-- Source `commit_file`: write the decoded upload payload and commit that
single file.  `none` models the assertion on a non-file title, the
`IndexError` in `make_canonical` on an empty derived name, and decode
failures on the payload. -/
def commit_file (ctx : Ctx) (title : Str) (filename : Option Str)
    (date : Option Str) (username : Str) (contents : Option Str)
    (comment : Str) (tally : Tally) : Option (List Ev × Tally) :=
  if "File:".data.isPrefixOf title then
    match
      (match filename with
       | some f =>
         if f = [] then (make_canonical (title.drop 5)).map (pyJoin ctx.pfx)
         else some f
       | none => (make_canonical (title.drop 5)).map (pyJoin ctx.pfx)) with
    | none => none
    | some fname =>
      match contents with
      | none => none
      | some c =>
        match ctx.b64decode c with
        | none => none
        | some payload =>
          match commit_files ctx [fname] username date comment tally with
          | none => none
          | some (evs, tally2) => some (Ev.write fname payload :: evs, tally2)
  else none

/-- The rendered stub written for a redirect record (`dump_revision`,
redirect branch). -/
def redirectStub (ctx : Ctx) (title redirect : Str) (date : Option Str) : Str :=
  "---\n".data
  ++ "title: ".data ++ safe_for_yaml title ++ ['\n']
  ++ "permalink: ".data ++ safe_for_yaml (make_url title ctx.pfx) ++ ['\n']
  ++ "redirect_to: /".data ++ safe_for_yaml (make_url redirect ctx.pfx) ++ ['\n']
  ++ "date: ".data ++ pyShow date ++ ['\n']
  ++ "---\n\n".data
  ++ "You should automatically be redirected to [".data ++ redirect
  ++ "](/".data ++ make_url redirect ctx.pfx ++ ")\n".data

/-- The front-matter block written for an ordinary converted page
(`dump_revision`, general case). -/
def frontMatter (ctx : Ctx) (title : Str) (categories : List Str)
    (date : Option Str) : Str :=
  "---\n".data
  ++ "title: ".data ++ safe_for_yaml title ++ ['\n']
  ++ "permalink: ".data ++ safe_for_yaml (make_url title ctx.pfx) ++ ['\n']
  ++ "date: ".data ++ pyShow date ++ ['\n']
  ++ (if "Category:".data.isPrefixOf title then
        "layout: tagpage\n".data ++ "tag: ".data ++ title.drop 9 ++ ['\n']
      else
        (if ctx.defaultLayout ≠ [] then
          "layout: ".data ++ ctx.defaultLayout ++ ['\n']
         else [])
        ++ (if categories ≠ [] then
              "tags:\n".data
              ++ (categories.map (fun c => " - ".data ++ c ++ ['\n'])).flatten
            else []))
  ++ "---\n\n".data

/-- The redirect target slice `text.strip()[12:-2]` of `dump_revision`. -/
def redirectTarget (text : Str) : Str := dropLastN 2 ((pyStrip text).drop 12)

/-- The combined condition under which `dump_revision` takes the redirect
branch (the two nested `if`s of the source, which otherwise fall through to
the general case). -/
def redirectTaken (text : Str) : Bool :=
  "#REDIRECT [[".data.isPrefixOf (pyStrip text)
  && "]]".data.isSuffixOf (pyStrip text)
  && !(redirectTarget text).contains '\n'
  && !(redirectTarget text).contains ']'

/-- General (non-redirect) tail of `dump_revision`: write the cleaned text,
invoke pandoc, restore the original mediawiki text, and on success write
the rendered file. -/
def dumpRegular (ctx : Ctx) (mw_filename md_filename : Str)
    (text original title : Str) (categories : List Str) (date : Option Str) :
    Option (Bool × List Ev) :=
  let ro := ctx.pandoc text
  let evs := [Ev.write mw_filename text, Ev.pandocRun mw_filename text,
              Ev.write mw_filename original]
  if ro.1 ≠ 0 ∨ ro.2 = [] then some (false, evs)
  else
    match cleanup_markdown ro.2 (make_url title ctx.pfx) ctx.pfx with
    | none => none
    | some body =>
      some (true,
        evs ++ [Ev.write md_filename (frontMatter ctx title categories date ++ body)])

/-- Source `dump_revision`: clean the markup, handle the redirect special
case without invoking pandoc, otherwise transcode; returns whether a commit
should follow, with the trace of writes and invocations. -/
def dump_revision (ctx : Ctx) (mw_filename md_filename : Str)
    (text0 title : Str) (date : Option Str) : Option (Bool × List Ev) :=
  match cleanup_mediawiki text0 with
  | none => none
  | some (text, categories) =>
    if redirectTaken text then
      some (true,
        [Ev.write mw_filename text0,
         Ev.write md_filename (redirectStub ctx title (redirectTarget text) date)])
    else
      dumpRegular ctx mw_filename md_filename text text0 title categories date

/-- The `if filename:` path join at the top of the per-record loop of
`commit_revisions`. -/
def joinedFilename (ctx : Ctx) (r : Record) : Option Str :=
  match r.filename with
  | some f => if f = [] then some f else some (pyJoin ctx.pfx f)
  | none => none

/-- Body of the per-record loop of `commit_revisions`: the events emitted
for this record, the records actually committed (`[r]` or `[]`), and the
updated tally.  `none` models an uncaught exception for this record. -/
def processRecord (ctx : Ctx) (tally : Tally) (r : Record) :
    Option (List Ev × List Record × Tally) :=
  if r.content = none ∧ ¬ "File:".data.isPrefixOf r.title then none
  else if ignore_by_pfx r.title ctx.pfxsToIgnore then some ([], [], tally)
  else if "File:".data.isPrefixOf r.title then
    match commit_file ctx r.title (joinedFilename ctx r) r.date r.username
        r.content r.comment tally with
    | none => none
    | some (evs, tally2) => some (evs, [r], tally2)
  else if "Template:".data.isPrefixOf r.title then some ([], [], tally)
  else if joinedFilename ctx r ≠ none then none
  else
    match r.content with
    | none => none
    | some text =>
      match dump_revision ctx (make_filename r.title ctx.mwExt ctx.pfx)
          (make_filename r.title ctx.mdExt ctx.pfx) text r.title r.date with
      | none => none
      | some (true, evs) =>
        match commit_revision ctx (make_filename r.title ctx.mwExt ctx.pfx)
            (make_filename r.title ctx.mdExt ctx.pfx) r.username r.date
            r.comment tally with
        | none => none
        | some (cevs, tally2) => some (evs ++ cevs, [r], tally2)
      | some (false, evs) => some (evs ++ [Ev.gitReset], [], tally)

/-- Drain a list of staged records in order; on an uncaught exception the
run stops (events and commits of the failed record are discarded, which no
claim inspects), recorded by the final `Bool`. -/
def commitRunT (ctx : Ctx) (tally : Tally) : List Record → List Ev × List Record × Tally × Bool
  | [] => ([], [], tally, true)
  | r :: rs =>
    match processRecord ctx tally r with
    | none => ([], [], tally, false)
    | some (evs, crs, tally2) =>
      let rest := commitRunT ctx tally2 rs
      (evs ++ rest.1, crs ++ rest.2.1, rest.2.2.1, rest.2.2.2)

/-- Byte-wise (code-point) three-way comparison of two strings; this is
SQLite's BINARY collation on the stored UTF-8 text. -/
def strCmp : Str → Str → Ordering
  | [], [] => .eq
  | [], _ :: _ => .lt
  | _ :: _, [] => .gt
  | a :: as, b :: bs =>
    if a.toNat < b.toNat then .lt
    else if b.toNat < a.toNat then .gt
    else strCmp as bs

/-- SQLite ordering on a nullable text column: `NULL` sorts first. -/
def optStrCmp : Option Str → Option Str → Ordering
  | none, none => .eq
  | none, some _ => .lt
  | some _, none => .gt
  | some a, some b => strCmp a b

/-- The `ORDER BY date, title` sort key comparison. -/
def keyCmp (r s : Record) : Ordering :=
  (optStrCmp r.date s.date).then (strCmp r.title s.title)

/-- Non-strict `(date, title)` order on records. -/
def keyLE (r s : Record) : Bool :=
  match keyCmp r s with
  | .gt => false
  | _ => true

/-- Insertion step of the sort modelling `ORDER BY date, title`. -/
def insertRec (r : Record) : List Record → List Record
  | [] => [r]
  | x :: xs => if keyLE r x then r :: x :: xs else x :: insertRec r xs

/-- Model of `SELECT * FROM revisions ORDER BY date, title`: a sort of the
staging store by the `(date, title)` key (stable insertion sort; SQLite
guarantees only *some* order consistent with the key). -/
def sortRevisions : List Record → List Record
  | [] => []
  | r :: rs => insertRec r (sortRevisions rs)

/-- Source `commit_revisions`: drain the staging store in `(date, title)`
order. -/
def commit_revisions (ctx : Ctx) (tally : Tally) (store : List Record) :
    List Ev × List Record × Tally × Bool :=
  commitRunT ctx tally (sortRevisions store)

/-- Replay the file writes of an event trace over a file system, mapping
each path to its latest written content. -/
def replayFS : List Ev → (Str → Option Str) → (Str → Option Str)
  | [], fs => fs
  | Ev.write p c :: es, fs => replayFS es (fun q => if q = p then some c else fs q)
  | _ :: es, fs => replayFS es fs

/-- Does some write in the trace have `pat` as a substring of its content? -/
def someWriteContains (pat : Str) : List Ev → Bool
  | [] => false
  | Ev.write _ c :: es => isInfixB pat c || someWriteContains pat es
  | _ :: es => someWriteContains pat es

/-- Is the event a pandoc invocation? -/
def isPandocEv : Ev → Bool
  | Ev.pandocRun _ _ => true
  | _ => false

/-- Is the event a git commit? -/
def isCommitEv : Ev → Bool
  | Ev.gitCommit _ _ _ _ => true
  | _ => false

/-!
Extraction state machine (`extract_revisions`): consumes the XML reader's
(event, tag, text) observations and inserts revision records into the
staging store.  Uncaught `assert` / attribute errors on `None` are `none`.
-/

/-- Accumulators of the extraction loop. -/
structure ExtState where
  title : Option Str
  filename : Option Str
  date : Option Str
  comment : Option Str
  username : Option Str
  text : Option Str
deriving DecidableEq, Repr

/-- All accumulators empty. -/
def initExtState : ExtState := ⟨none, none, none, none, none, none⟩

/-- One observation from the streaming reader: a start event (with the
optional `encoding` attribute, only read on `contents` tags) or an end
event carrying the element's optional text. -/
inductive XmlEv
  | start (tag : Str) (encoding : Option Str)
  | stop (tag : Str) (text : Option Str)
deriving DecidableEq, Repr

/-- Python `username = "" if username is None else username` normalization
done at flush time for `username` and `comment`. -/
def normStr (o : Option Str) : Str :=
  match o with
  | none => []
  | some u => u

/-- The accumulator reset at the end of a revision or upload
(`filename = date = username = text = comment = None`; title persists). -/
def resetState (st : ExtState) : ExtState :=
  ⟨st.title, none, none, none, none, none⟩

/-- One iteration of the extraction loop of `extract_revisions`. -/
def extractStep (blocklist pfxs : List Str) (st : ExtState) (ev : XmlEv) :
    Option (ExtState × List Record) :=
  match ev with
  | .start tag0 enc =>
    let tag := clean_tag tag0
    if tag = "page".data then
      if st.title = none ∧ st.date = none then some (st, []) else none
    else if tag = "revision".data ∨ tag = "upload".data then
      if st.date = none then some (st, []) else none
    else if tag = "contents".data then
      if enc = some "base64".data then some (st, []) else none
    else some (st, [])
  | .stop tag0 txt =>
    let tag := clean_tag tag0
    if tag = "title".data then
      match txt with
      | none => none
      | some t =>
        some (⟨some (pyStrip t), st.filename, st.date, st.comment, st.username, st.text⟩, [])
    else if tag = "timestamp".data then
      match txt with
      | none => none
      | some t =>
        some (⟨st.title, st.filename, some (pyStrip t), st.comment, st.username, st.text⟩, [])
    else if tag = "comment".data then
      match txt with
      | none => some (st, [])
      | some t =>
        some (⟨st.title, st.filename, st.date, some (pyStrip t), st.username, st.text⟩, [])
    else if tag = "username".data then
      match txt with
      | none => none
      | some t =>
        some (⟨st.title, st.filename, st.date, st.comment, some (pyStrip t), st.text⟩, [])
    else if tag = "text".data then
      some (⟨st.title, st.filename, st.date, st.comment, st.username, txt⟩, [])
    else if tag = "contents".data then
      match txt with
      | none => none
      | some t =>
        some (⟨st.title, st.filename, st.date, st.comment, st.username, some (pyStrip t)⟩, [])
    else if tag = "filename".data then
      match txt with
      | none => none
      | some t =>
        some (⟨st.title, some (pyStrip t), st.date, st.comment, st.username, st.text⟩, [])
    else if tag = "revision".data then
      if blocklist.contains (normStr st.username) then some (resetState st, [])
      else
        match st.title with
        | none => none
        | some title =>
          if "File:".data.isPrefixOf title then some (resetState st, [])
          else if ignore_by_pfx title pfxs then some (resetState st, [])
          else
            match st.text with
            | none => some (resetState st, [])
            | some _ =>
              some (resetState st,
                [⟨title, st.filename, st.date, normStr st.username, st.text,
                  normStr st.comment⟩])
    else if tag = "upload".data then
      match st.title with
      | none => none
      | some title =>
        if "File:".data.isPrefixOf title then
          if blocklist.contains (normStr st.username) then some (resetState st, [])
          else if st.text ≠ none ∨ "File:".data.isPrefixOf title then
            some (resetState st,
              [⟨title, st.filename, st.date, normStr st.username, st.text,
                normStr st.comment⟩])
          else some (resetState st, [])
        else none
    else if tag = "page".data then
      if st.date = none then some (initExtState, []) else none
    else some (st, [])

/-- Run the extraction loop over an observation sequence; a structural
violation (uncaught exception) stops the run, recorded by the final
`Bool`, keeping the records already inserted. -/
def extractRunT (blocklist pfxs : List Str) :
    ExtState → List XmlEv → ExtState × List Record × Bool
  | st, [] => (st, [], true)
  | st, e :: es =>
    match extractStep blocklist pfxs st e with
    | none => (st, [], false)
    | some (st2, rs) =>
      let rest := extractRunT blocklist pfxs st2 es
      (rest.1, rs ++ rest.2.1, rest.2.2)

/-- Source `extract_revisions`, from the initial (all-`None`) state. -/
def extract_revisions (blocklist pfxs : List Str) (evs : List XmlEv) :
    ExtState × List Record × Bool :=
  extractRunT blocklist pfxs initExtState evs

/-- Head character (if any) is not whitespace. -/
def headNotWs (l : Str) : Bool :=
  match l with
  | [] => true
  | c :: _ => !pyIsSpace c

/-- Last character (if any) is not whitespace. -/
def lastNotWs (l : Str) : Bool := headNotWs l.reverse

/-- A line on which every transformation of `cleanup_mediawiki` is the
identity: no LEFT-TO-RIGHT marks, no custom language tag forms, no div
wrapper, not a TOC token, and none of the category / user link constructs. -/
def inertLine (l : Str) : Bool :=
  !(isInfixB [ltrChar] l)
  && langNames.all (fun lang =>
      !(('<' :: lang ++ ['>']).isPrefixOf (pyLower l))
      && !(('<' :: lang ++ [' ']).isPrefixOf l)
      && !(("</".data ++ lang ++ ['>']).isSuffixOf (pyRStrip l)))
  && !("<div ".data.isPrefixOf (pyStrip l) && "</div>".data.isSuffixOf (pyStrip l))
  && !(decide (l ∈ tocTokens))
  && !(isInfixB "[[Category:".data l)
  && !(isInfixB "[[:Category:".data l)
  && !(isInfixB "[[User:".data l)

/-- Text component of the markup cleaner, for stating idempotence. -/
def cleanupText (t : Str) : Option Str := (cleanup_mediawiki t).map (fun r => r.1)

/-- Concrete run context used by witnesses: a pandoc oracle that succeeds
with output `out`, an identity base64 decoder, and the default argument
values of `main`. -/
def witnessCtx : Ctx :=
  ⟨fun _ => (0, "out".data), fun s => some s, "wiki/".data, "mediawiki".data,
   "md".data, "wiki".data, "a@b.c".data, [], pagePrefixesToIgnore⟩

/-- Does some write in the result of `dump_revision` contain `pat`? -/
def writesContain (pat : Str) (res : Option (Bool × List Ev)) : Bool :=
  match res with
  | some r => someWriteContains pat r.2
  | none => false

/-- A context whose transcoder always exits with status 1 and prints
nothing. -/
def failCtx : Ctx :=
  ⟨fun _ => (1, []), fun s => some s, "wiki/".data, "mediawiki".data,
   "md".data, "wiki".data, "a@b.c".data, [], pagePrefixesToIgnore⟩

theorem replaceAllF_congr (pat rep : Str) :
    ∀ (f1 : Nat) (l : Str) (f2 : Nat), l.length ≤ f1 → l.length ≤ f2 →
      replaceAllF pat rep f1 l = replaceAllF pat rep f2 l := by
  intro f1
  induction f1 with
  | zero =>
    intro l f2 h1 _
    cases l with
    | nil => cases f2 <;> rfl
    | cons c cs => simp at h1
  | succ f ih =>
    intro l f2 h1 h2
    cases l with
    | nil => cases f2 <;> rfl
    | cons c cs =>
      cases f2 with
      | zero => simp at h2
      | succ g =>
        simp only [replaceAllF]
        split
        · rename_i hm
          have hlen : (cs.drop (pat.length - 1)).length ≤ f := by
            simp only [List.length_drop]
            simp only [List.length_cons] at h1
            omega
          have hlen2 : (cs.drop (pat.length - 1)).length ≤ g := by
            simp only [List.length_drop]
            simp only [List.length_cons] at h2
            omega
          rw [ih _ g hlen hlen2]
        · have hlen : cs.length ≤ f := by
            simp only [List.length_cons] at h1
            omega
          have hlen2 : cs.length ≤ g := by
            simp only [List.length_cons] at h2
            omega
          rw [ih _ g hlen hlen2]

theorem replaceAll_nil (pat rep : Str) : replaceAll pat rep [] = [] := rfl

theorem replaceAll_cons (pat rep : Str) (c : Char) (cs : Str) :
    replaceAll pat rep (c :: cs) =
      if pat ≠ [] ∧ pat.isPrefixOf (c :: cs) then
        rep ++ replaceAll pat rep (cs.drop (pat.length - 1))
      else
        c :: replaceAll pat rep cs := by
  show replaceAllF pat rep (cs.length + 1) (c :: cs) = _
  simp only [replaceAllF]
  split
  · rw [replaceAll, replaceAllF_congr pat rep cs.length _ _ (by simp [List.length_drop])
        (le_refl _)]
  · rfl

theorem splitNl_ne_nil (l : Str) : splitNl l ≠ [] := by
  induction l with
  | nil => simp [splitNl]
  | cons c cs ih =>
    simp only [splitNl]
    split
    · simp
    · cases h : splitNl cs with
      | nil => simp
      | cons h t => simp

/-- Splitting on newlines and re-joining is the identity. -/
theorem joinNl_splitNl (l : Str) : joinNl (splitNl l) = l := by
  induction l with
  | nil => simp [splitNl, joinNl]
  | cons c cs ih =>
    simp only [splitNl]
    split
    · rename_i hc
      subst hc
      cases h : splitNl cs with
      | nil => exact absurd h (splitNl_ne_nil cs)
      | cons hd t =>
        rw [h] at ih
        simpa [joinNl] using ih
    · cases h : splitNl cs with
      | nil => exact absurd h (splitNl_ne_nil cs)
      | cons hd t =>
        rw [h] at ih
        cases t with
        | nil => simpa [joinNl] using ih
        | cons t0 ts => simpa [joinNl] using ih

example :
    un_div "<div style=x>[[Image:Pear.png|left|The Bosc Pear]]</div>".data =
      some "[[Image:Pear.png|left|The Bosc Pear]]".data := by decide

example :
    cleanup_mediawiki "<div style=x>[[Image:Pear.png|left|The Bosc Pear]]</div>".data =
      some ("[[Image:Pear.png|left|The Bosc Pear]]".data, []) := by decide

example :
    cleanup_markdown "[DAS/1](DAS/1 \"wikilink\")".data "wiki/DAS/1/".data "wiki/".data =
      some "[DAS/1](/wiki/DAS/1 \"wikilink\")".data := by decide

/-!
Generic lemmas about the string primitives, used throughout the claim
proofs below.
-/

theorem indexOfSub_some_spec (pat : Str) :
    ∀ (l : Str) (i : Nat), indexOfSub pat l = some i →
      pat.isPrefixOf (l.drop i) = true ∧
        ∀ j, j < i → pat.isPrefixOf (l.drop j) = false := by
  intro l
  induction l with
  | nil =>
    intro i h
    simp only [indexOfSub] at h
    split at h
    · rename_i hp
      cases h
      exact ⟨by simpa using hp, fun j hj => by omega⟩
    · cases h
  | cons c cs ih =>
    intro i h
    simp only [indexOfSub] at h
    split at h
    · rename_i hp
      cases h
      exact ⟨by simpa using hp, fun j hj => by omega⟩
    · rename_i hp
      simp only [Bool.not_eq_true] at hp
      cases hm : indexOfSub pat cs with
      | none => rw [hm] at h; cases h
      | some i' =>
        rw [hm] at h
        simp only [Option.map_some'] at h
        cases h
        obtain ⟨h1, h2⟩ := ih i' hm
        refine ⟨by simpa using h1, ?_⟩
        intro j hj
        cases j with
        | zero => simpa using hp
        | succ j' =>
          have hj' : j' < i' := by omega
          simpa using h2 j' hj'

theorem indexOfSub_intro (pat : Str) :
    ∀ (l : Str) (i : Nat), pat.isPrefixOf (l.drop i) = true →
      (∀ j, j < i → pat.isPrefixOf (l.drop j) = false) →
      indexOfSub pat l = some i := by
  intro l
  induction l with
  | nil =>
    intro i h1 h2
    simp only [List.drop_nil] at h1
    cases i with
    | zero => simp [indexOfSub, h1]
    | succ i' =>
      have h0 := h2 0 (by omega)
      simp only [List.drop_nil] at h0
      rw [h1] at h0
      cases h0
  | cons c cs ih =>
    intro i h1 h2
    cases i with
    | zero =>
      simp only [List.drop_zero] at h1
      simp [indexOfSub, h1]
    | succ i' =>
      have h0 := h2 0 (by omega)
      simp only [List.drop_zero] at h0
      simp only [indexOfSub, h0, Bool.false_eq_true, if_false]
      rw [ih i' (by simpa using h1) (fun j hj => by simpa using h2 (j + 1) (by omega))]
      rfl

theorem isInfixB_eq_isSome (pat : Str) :
    ∀ l, isInfixB pat l = (indexOfSub pat l).isSome := by
  intro l
  induction l with
  | nil =>
    simp only [isInfixB, indexOfSub]
    cases h : pat.isPrefixOf [] <;> simp [h]
  | cons c cs ih =>
    simp only [isInfixB, indexOfSub]
    cases h : pat.isPrefixOf (c :: cs) <;> simp [h, ih]

theorem isInfixB_spec (pat : Str) :
    ∀ l, isInfixB pat l = true ↔ pat <:+: l := by
  intro l
  induction l with
  | nil =>
    simp [isInfixB, List.isPrefixOf_iff_prefix, List.prefix_nil, List.infix_nil]
  | cons c cs ih =>
    simp [isInfixB, Bool.or_eq_true, List.isPrefixOf_iff_prefix, ih,
      List.infix_cons_iff]

theorem replaceAll_of_no_occurrence (pat rep : Str) (_hne : pat ≠ []) :
    ∀ l, isInfixB pat l = false → replaceAll pat rep l = l := by
  intro l
  induction l with
  | nil => intro _; rfl
  | cons c cs ih =>
    intro h
    simp only [isInfixB, Bool.or_eq_false_iff] at h
    rw [replaceAll_cons]
    rw [if_neg (by simp [h.1])]
    rw [ih h.2]

theorem replaceAll_first_occurrence (pat rep : Str) (hne : pat ≠ []) :
    ∀ (l : Str) (i : Nat), indexOfSub pat l = some i →
      replaceAll pat rep l =
        l.take i ++ rep ++ replaceAll pat rep (l.drop (i + pat.length)) := by
  intro l
  induction l with
  | nil =>
    intro i h
    simp only [indexOfSub] at h
    split at h
    · rename_i hp
      rw [List.isPrefixOf_iff_prefix, List.prefix_nil] at hp
      exact absurd hp hne
    · cases h
  | cons c cs ih =>
    intro i h
    simp only [indexOfSub] at h
    split at h
    · rename_i hp
      cases h
      rw [replaceAll_cons, if_pos ⟨hne, hp⟩]
      have hlen : 1 ≤ pat.length := by
        cases pat with
        | nil => exact absurd rfl hne
        | cons p ps => simp
      have : cs.drop (pat.length - 1) = (c :: cs).drop (0 + pat.length) := by
        have : 0 + pat.length = (pat.length - 1) + 1 := by omega
        rw [this]
        rfl
      rw [this]
      rfl
    · rename_i hp
      simp only [Bool.not_eq_true] at hp
      cases hm : indexOfSub pat cs with
      | none => rw [hm] at h; cases h
      | some i' =>
        rw [hm] at h
        simp only [Option.map_some'] at h
        cases h
        rw [replaceAll_cons, if_neg (by simp [hp])]
        rw [ih i' hm]
        have h1 : (c :: cs).take (i' + 1) = c :: cs.take i' := rfl
        have h2 : (c :: cs).drop (i' + 1 + pat.length) = cs.drop (i' + pat.length) := by
          have he : i' + 1 + pat.length = (i' + pat.length) + 1 := by omega
          rw [he]
          rfl
        rw [h1, h2]
        simp

theorem pyLStrip_eq_self {l : Str} (h : headNotWs l = true) : pyLStrip l = l := by
  cases l with
  | nil => rfl
  | cons c cs =>
    simp only [headNotWs, Bool.not_eq_true'] at h
    simp [pyLStrip, List.dropWhile_cons, h]

theorem pyRStrip_eq_self {l : Str} (h : lastNotWs l = true) : pyRStrip l = l := by
  have he : pyRStrip l = (pyLStrip l.reverse).reverse := rfl
  rw [he, pyLStrip_eq_self h, List.reverse_reverse]

theorem pyStrip_eq_self {l : Str} (h1 : headNotWs l = true) (h2 : lastNotWs l = true) :
    pyStrip l = l := by
  rw [pyStrip, pyLStrip_eq_self h1, pyRStrip_eq_self h2]

theorem infix_dropWhile_ws (pat : Str) (hne : pat ≠ []) (hh : headNotWs pat = true) :
    ∀ l, pat <:+: l → pat <:+: l.dropWhile pyIsSpace := by
  intro l
  induction l with
  | nil => intro h; simpa using h
  | cons c cs ih =>
    intro h
    by_cases hc : pyIsSpace c = true
    · rw [List.dropWhile_cons, if_pos hc]
      rcases List.infix_cons_iff.mp h with hp | hi
      · cases pat with
        | nil => exact absurd rfl hne
        | cons p ps =>
          rw [List.cons_prefix_cons] at hp
          obtain ⟨hpc, _⟩ := hp
          simp only [headNotWs] at hh
          rw [hpc, hc] at hh
          cases hh
      · exact ih hi
    · rw [List.dropWhile_cons, if_neg hc]
      exact h

theorem infix_pyStrip (pat : Str) (hne : pat ≠ []) (hh : headNotWs pat = true)
    (hl : lastNotWs pat = true) :
    ∀ l, pat <:+: l → pat <:+: pyStrip l := by
  intro l h
  have h1 : pat <:+: pyLStrip l := infix_dropWhile_ws pat hne hh l h
  have h2 : pat.reverse <:+: (pyLStrip l).reverse := List.reverse_infix.mpr h1
  have hne2 : pat.reverse ≠ [] := by simpa using hne
  have h3 : pat.reverse <:+: ((pyLStrip l).reverse).dropWhile pyIsSpace :=
    infix_dropWhile_ws pat.reverse hne2 hl _ h2
  have h4 : pat <:+: (((pyLStrip l).reverse).dropWhile pyIsSpace).reverse :=
    List.reverse_infix.mp (by simpa using h3)
  simpa [pyStrip, pyRStrip] using h4

theorem pyStrip_ne_nil {l : Str} {c : Char} (hc : c ∈ l) (hws : pyIsSpace c = false) :
    pyStrip l ≠ [] := by
  obtain ⟨s, t, rfl⟩ := List.append_of_mem hc
  have hinf : [c] <:+: s ++ c :: t := ⟨s, t, by simp⟩
  have hres := infix_pyStrip [c] (by simp) (by simp [headNotWs, hws])
    (by simp [lastNotWs, headNotWs, hws]) _ hinf
  intro hnil
  rw [hnil] at hres
  simp at hres

/-!
Claim theorems.
-/

/-- Claim C6: authorship resolution returns the mapped identity verbatim
when the username is a key of the mapping; when the username is non-empty
and absent from the mapping it increments the tally entry for that username
by exactly 1 and returns the username formatted with the default email;
when the username is empty (and unmapped) it returns the anonymous
contributor identity; being a total function, it never fails. -/
theorem claim_C6_resolveAuthor (u : Str) (mapping : List (Str × Str))
    (email : Str) (tally : Tally) :
    (∀ a, List.lookup u mapping = some a →
        resolveAuthor u mapping email tally = (a, tally))
    ∧ (List.lookup u mapping = none → u ≠ [] →
        resolveAuthor u mapping email tally =
          (u ++ " <".data ++ email ++ ['>'],
           fun v => if v = u then tally v + 1 else tally v))
    ∧ (List.lookup u mapping = none → u = [] →
        resolveAuthor u mapping email tally =
          ("Anonymous Contributor <".data ++ email ++ ['>'], tally)) := by
  refine ⟨?_, ?_, ?_⟩
  · intro a h
    simp [resolveAuthor, h]
  · intro h hne
    simp [resolveAuthor, h, hne]
  · intro h he
    subst he
    simp [resolveAuthor, h]

/-- Witness for C6 at the spec's own example: username `alice` absent from
the mapping and default email `e@x.org` give identity `alice <e@x.org>` and
a tally of 1 for `alice`. -/
theorem claim_C6_witness :
    (resolveAuthor "alice".data [] "e@x.org".data (fun _ => 0)).1 =
        "alice <e@x.org>".data
    ∧ (resolveAuthor "alice".data [] "e@x.org".data (fun _ => 0)).2 "alice".data = 1 := by
  have h := (claim_C6_resolveAuthor "alice".data [] "e@x.org".data (fun _ => 0)).2.1
    rfl (by decide)
  constructor
  · rw [h]
    decide
  · rw [h]
    decide

theorem reMatchAt_shape :
    ∀ {l m rest : Str}, reMatchAt l = some (m, rest) →
      ∃ c r, m = ']' :: '(' :: c :: r ∧ isUpperAZ c = true := by
  intro l m rest h
  match l with
  | [] => cases h
  | [c0] => cases h
  | [c0, c1] => cases h
  | c0 :: c1 :: c :: tl =>
    simp only [reMatchAt] at h
    split at h
    · rename_i hcond
      obtain ⟨h0, h1, hc⟩ := hcond
      cases hg : greedyLen tl with
      | none => rw [hg] at h; cases h
      | some j =>
        rw [hg] at h
        simp only [Option.some.injEq, Prod.mk.injEq] at h
        subst h0
        subst h1
        exact ⟨c, tl.take j ++ wlTail, by rw [← h.1], hc⟩
    · cases h

theorem reFindallF_shape :
    ∀ (fuel : Nat) (l m : Str), m ∈ reFindallF fuel l →
      ∃ c r, m = ']' :: '(' :: c :: r ∧ isUpperAZ c = true := by
  intro fuel
  induction fuel with
  | zero =>
    intro l m h
    simp [reFindallF] at h
  | succ f ih =>
    intro l m h
    cases l with
    | nil => simp [reFindallF] at h
    | cons c0 cs =>
      simp only [reFindallF] at h
      cases hm : reMatchAt (c0 :: cs) with
      | some pr =>
        obtain ⟨m1, rest1⟩ := pr
        rw [hm] at h
        rcases List.mem_cons.mp h with h1 | h2
        · subst h1
          exact reMatchAt_shape hm
        · exact ih _ _ h2
      | none =>
        rw [hm] at h
        exact ih _ _ h

theorem skip_branch_false {m : Str}
    (h : ∃ c r, m = ']' :: '(' :: c :: r ∧ isUpperAZ c = true) :
    ¬("](http".data.isPrefixOf m = true ∨ "](ftp:".data.isPrefixOf m = true
      ∨ "](mailto:".data.isPrefixOf m = true) := by
  obtain ⟨c, r, rfl, hc⟩ := h
  have hub : c.toNat ≤ 90 := by
    simp only [isUpperAZ, Bool.and_eq_true, decide_eq_true_eq] at hc
    exact hc.2
  intro hor
  rcases hor with h1 | h1 | h1
  · have he : "](http".data = ']' :: '(' :: 'h' :: "ttp".data := rfl
    rw [he] at h1
    simp only [List.isPrefixOf, List.cons.injEq, Bool.and_eq_true, beq_iff_eq] at h1
    obtain ⟨-, -, hch, -⟩ := h1
    rw [← hch] at hub
    simp at hub
  · have he : "](ftp:".data = ']' :: '(' :: 'f' :: "tp:".data := rfl
    rw [he] at h1
    simp only [List.isPrefixOf, List.cons.injEq, Bool.and_eq_true, beq_iff_eq] at h1
    obtain ⟨-, -, hch, -⟩ := h1
    rw [← hch] at hub
    simp at hub
  · have he : "](mailto:".data = ']' :: '(' :: 'm' :: "ailto:".data := rfl
    rw [he] at h1
    simp only [List.isPrefixOf, List.cons.injEq, Bool.and_eq_true, beq_iff_eq] at h1
    obtain ⟨-, -, hch, -⟩ := h1
    rw [← hch] at hub
    simp at hub

theorem applyMatches_eq (pfx : Str) :
    ∀ (ms : List Str) (t : Str),
      (∀ m ∈ ms, ∃ c r, m = ']' :: '(' :: c :: r ∧ isUpperAZ c = true) →
      applyMatchesSkip pfx ms t = applyMatchesPlain pfx ms t := by
  intro ms
  induction ms with
  | nil => intro t _; rfl
  | cons m rest ih =>
    intro t h
    have hm := h m (List.mem_cons_self m rest)
    have hfalse := skip_branch_false hm
    simp only [applyMatchesSkip, applyMatchesPlain, List.foldl_cons]
    rw [if_neg hfalse]
    exact ih _ (fun m2 hm2 => h m2 (List.mem_cons_of_mem _ hm2))

/-- Claim C10: every match of the rendered-output link rewriter's regex
begins with the two literal characters followed by an uppercase ASCII
letter, so the rewriter never rewrites a link target whose first character
after the bracket-parenthesis is not an uppercase letter; in particular the
explicit skip branch for `](http` / `](ftp:` / `](mailto:` targets is
unreachable: `cleanup_markdown` coincides with its skip-branch-free variant
on every input. -/
theorem claim_C10_skip_unreachable :
    (∀ (text m : Str), m ∈ reFindall text →
        ∃ c r, m = ']' :: '(' :: c :: r ∧ isUpperAZ c = true)
    ∧ ∀ (text source_url pfx : Str),
        cleanup_markdown text source_url pfx =
          cleanup_markdown_noskip text source_url pfx := by
  constructor
  · intro text m hm
    exact reFindallF_shape _ _ _ hm
  · intro text su pfx
    unfold cleanup_markdown cleanup_markdown_noskip
    cases hX :
      (if pfx ≠ [] then
        if "/".data.isSuffixOf pfx ∧ pfx.isPrefixOf su
            ∧ ¬ "/".data.isPrefixOf pfx then
          some (su.drop pfx.length)
        else none
      else some su) with
    | none => rfl
    | some source =>
      simp only []
      split
      · rfl
      · split
        · rfl
        · rw [applyMatches_eq pfx (reFindall text) text
            (fun m hm => reFindallF_shape _ _ _ hm)]

/-- Witness for C10: a concrete match of the regex has the required shape,
and the two rewriter variants agree on a concrete input. -/
theorem claim_C10_witness :
    (∃ c r, "](B \"wikilink\")".data = ']' :: '(' :: c :: r ∧ isUpperAZ c = true)
    ∧ cleanup_markdown "[A](B \"wikilink\")".data "w/a/b/".data "w/".data =
        cleanup_markdown_noskip "[A](B \"wikilink\")".data "w/a/b/".data "w/".data := by
  constructor
  · exact claim_C10_skip_unreachable.1 "[A](B \"wikilink\")".data
      "](B \"wikilink\")".data (by decide)
  · exact claim_C10_skip_unreachable.2 "[A](B \"wikilink\")".data "w/a/b/".data "w/".data

/-- Counterexample for claim C8 as stated: for `<div a> x </div>` the inner
text ` x ` has no nested wrapper, yet `un_div` returns `x`, not ` x `
unchanged — the final `.strip()` of `un_div` trims the inner text's
surrounding whitespace. -/
theorem claim_C8_counterexample :
    un_div "<div a> x </div>".data = some "x".data ∧ "x".data ≠ " x ".data := by
  constructor
  · decide
  · decide

theorem length_ldiv : ("<div ".data : Str).length = 5 := rfl

theorem length_rdiv : ("</div>".data : Str).length = 6 := rfl

/-- Claim C8 (amended): for `<div ` ++ A ++ `>` ++ INNER ++ `</div>` with no
`>` inside the attribute text A, `un_div` returns `INNER.strip()`; it
returns INNER exactly when INNER carries no leading or trailing
whitespace. -/
theorem claim_C8_un_div (A inner : Str) (hA : '>' ∉ A) :
    un_div ("<div ".data ++ A ++ '>' :: inner ++ "</div>".data) =
        some (pyStrip inner)
    ∧ (pyStrip inner = inner →
        un_div ("<div ".data ++ A ++ '>' :: inner ++ "</div>".data) = some inner) := by
  have hmem : '>' ∉ ("<div ".data ++ A) := by
    intro hm
    rcases List.mem_append.mp hm with hm1 | hm1
    · exact absurd hm1 (by decide)
    · exact hA hm1
  have hgroup : "<div ".data ++ A ++ '>' :: inner ++ "</div>".data
      = (("<div ".data ++ A) ++ '>' :: inner) ++ "</div>".data := by
    simp [List.append_assoc]
  have hmain2 :
      un_div ((("<div ".data ++ A) ++ '>' :: inner) ++ "</div>".data) =
        some (pyStrip inner) := by
    have hhead :
        headNotWs ((("<div ".data ++ A) ++ '>' :: inner) ++ "</div>".data) = true := rfl
    have hlast :
        lastNotWs ((("<div ".data ++ A) ++ '>' :: inner) ++ "</div>".data) = true := by
      unfold lastNotWs
      rw [List.reverse_append]
      rfl
    have hstrip := pyStrip_eq_self hhead hlast
    have hpre :
        "<div ".data.isPrefixOf
          ((("<div ".data ++ A) ++ '>' :: inner) ++ "</div>".data) = true := by
      rw [List.isPrefixOf_iff_prefix, ← hgroup]
      have hre : "<div ".data ++ A ++ '>' :: inner ++ "</div>".data
          = "<div ".data ++ (A ++ '>' :: inner ++ "</div>".data) := by
        simp [List.append_assoc]
      rw [hre]
      exact List.prefix_append _ _
    have hsuf :
        "</div>".data.isSuffixOf
          ((("<div ".data ++ A) ++ '>' :: inner) ++ "</div>".data) = true := by
      rw [List.isSuffixOf_iff_suffix]
      exact List.suffix_append _ _
    have hdrop :
        dropLastN 6 ((("<div ".data ++ A) ++ '>' :: inner) ++ "</div>".data)
          = ("<div ".data ++ A) ++ '>' :: inner := by
      rw [dropLastN, List.length_append, length_rdiv]
      have he : (("<div ".data ++ A) ++ '>' :: inner).length + 6 - 6
          = (("<div ".data ++ A) ++ '>' :: inner).length := by omega
      rw [he]
      exact List.take_left _ "</div>".data
    have hidx :
        indexOfSub ">".data (("<div ".data ++ A) ++ '>' :: inner)
          = some ("<div ".data ++ A).length := by
      apply indexOfSub_intro
      · rw [List.drop_left]
        show (['>'].isPrefixOf ('>' :: inner)) = true
        simp [List.isPrefixOf]
      · intro j hj
        rw [List.drop_append_of_le_length (le_of_lt hj)]
        have hdj := List.drop_eq_getElem_cons (l := "<div ".data ++ A) hj
        rw [hdj, List.cons_append]
        have hne : ('>' : Char) ≠ ("<div ".data ++ A)[j] := by
          intro he
          exact hmem (he ▸ List.getElem_mem hj)
        show (['>'].isPrefixOf
          (("<div ".data ++ A)[j] :: (("<div ".data ++ A).drop (j + 1) ++ '>' :: inner)))
            = false
        simp only [List.isPrefixOf, Bool.and_eq_false_iff]
        left
        simpa using hne
    have hfin :
        (("<div ".data ++ A) ++ '>' :: inner).drop (("<div ".data ++ A).length + 1)
          = inner := by
      have he : ("<div ".data ++ A) ++ '>' :: inner
          = (("<div ".data ++ A) ++ ['>']) ++ inner := by
        simp
      rw [he]
      have hlen : (("<div ".data ++ A) ++ ['>']).length
          = ("<div ".data ++ A).length + 1 := by simp
      rw [← hlen]
      exact List.drop_left _ _
    simp only [un_div]
    rw [hstrip, if_pos ⟨hpre, hsuf⟩, hdrop, hidx]
    show some (pyStrip ((("<div ".data ++ A) ++ '>' :: inner).drop
      (("<div ".data ++ A).length + 1))) = some (pyStrip inner)
    rw [hfin]
  have hmain :
      un_div ("<div ".data ++ A ++ '>' :: inner ++ "</div>".data) =
        some (pyStrip inner) := by
    rw [hgroup]
    exact hmain2
  exact ⟨hmain, fun hsame => by rw [hmain, hsame]⟩

/-- Witness for C8 (amended) at the source's own test string. -/
theorem claim_C8_witness :
    un_div ("<div ".data ++ "style=x".data
        ++ '>' :: "[[Image:Pear.png|left|The Bosc Pear]]".data ++ "</div>".data) =
      some "[[Image:Pear.png|left|The Bosc Pear]]".data := by
  have h := (claim_C8_un_div "style=x".data
    "[[Image:Pear.png|left|The Bosc Pear]]".data (by decide)).2 (by decide)
  exact h

/-- Counterexample for claim C9 as stated: on a line carrying the same
category construct twice, Python's `str.replace` removes every occurrence,
not only the first, so the later construct does not remain in the cleaned
text (it is recorded once and removed everywhere). -/
theorem claim_C9_counterexample :
    cleanup_mediawiki "[[Category:A]] x [[Category:A]]".data =
        some ("x".data, ["A".data])
    ∧ isInfixB "[[Category:".data "x".data = false := by
  constructor
  · decide
  · decide

theorem length_catpat : ("[[Category:".data : Str).length = 11 := rfl

theorem prefixOf_trans {p q l : Str} (hpq : p <+: q) (h : q.isPrefixOf l = true) :
    p.isPrefixOf l = true := by
  rw [List.isPrefixOf_iff_prefix] at h ⊢
  exact hpq.trans h

/-- Claim C9 (amended): for a line of the form
`P ++ [[Category:L1]] ++ M ++ [[Category:L2]] ++ S` whose first category
construct starts at `|P|` and whose first label ends at the first `]]`,
and whose first construct's exact text does not recur later in the line,
the cleaner records only `L1` and removes only the occurrences of the
first construct's exact text: the cleaned line is the stripped
`P ++ M ++ [[Category:L2]] ++ S`, in which the later construct still
occurs, and `L2` is not recorded.  (When the later construct has the same
label, every occurrence is removed — see the counterexample.) -/
theorem claim_C9_categoryStep (P L1 M L2 S : Str)
    (h1 : indexOfSub "[[Category:".data
        (P ++ "[[Category:".data ++ L1 ++ "]]".data ++ M
          ++ "[[Category:".data ++ L2 ++ "]]".data ++ S) = some P.length)
    (h3 : indexOfSub "]]".data
        (L1 ++ "]]".data ++ M ++ "[[Category:".data ++ L2 ++ "]]".data ++ S)
          = some L1.length)
    (h2 : isInfixB ("[[Category:".data ++ L1 ++ "]]".data)
        (M ++ "[[Category:".data ++ L2 ++ "]]".data ++ S) = false) :
    categoryStep (P ++ "[[Category:".data ++ L1 ++ "]]".data ++ M
        ++ "[[Category:".data ++ L2 ++ "]]".data ++ S)
      = some (some (pyStrip (P ++ M ++ "[[Category:".data ++ L2 ++ "]]".data ++ S)),
              [L1])
    ∧ isInfixB ("[[Category:".data ++ L2 ++ "]]".data)
        (pyStrip (P ++ M ++ "[[Category:".data ++ L2 ++ "]]".data ++ S)) = true := by
  have hinf1 : isInfixB "[[Category:".data
      (P ++ "[[Category:".data ++ L1 ++ "]]".data ++ M
        ++ "[[Category:".data ++ L2 ++ "]]".data ++ S) = true := by
    rw [isInfixB_eq_isSome, h1]
    rfl
  have hdrop0 :
      (P ++ "[[Category:".data ++ L1 ++ "]]".data ++ M
        ++ "[[Category:".data ++ L2 ++ "]]".data ++ S).drop (P.length + 11)
      = L1 ++ "]]".data ++ M ++ "[[Category:".data ++ L2 ++ "]]".data ++ S := by
    have hg : P ++ "[[Category:".data ++ L1 ++ "]]".data ++ M
        ++ "[[Category:".data ++ L2 ++ "]]".data ++ S
        = (P ++ "[[Category:".data)
          ++ (L1 ++ "]]".data ++ M ++ "[[Category:".data ++ L2 ++ "]]".data ++ S) := by
      simp [List.append_assoc]
    rw [hg]
    have hlen : (P ++ "[[Category:".data).length = P.length + 11 := by
      rw [List.length_append, length_catpat]
    rw [← hlen]
    exact List.drop_left _ _
  have htake : (L1 ++ "]]".data ++ M ++ "[[Category:".data ++ L2 ++ "]]".data ++ S).take
      L1.length = L1 := by
    have hg : L1 ++ "]]".data ++ M ++ "[[Category:".data ++ L2 ++ "]]".data ++ S
        = L1 ++ ("]]".data ++ M ++ "[[Category:".data ++ L2 ++ "]]".data ++ S) := by
      simp [List.append_assoc]
    rw [hg]
    exact List.take_left _ _
  have hassert : isInfixB ("[[Category:".data ++ L1 ++ "]]".data)
      (P ++ "[[Category:".data ++ L1 ++ "]]".data ++ M
        ++ "[[Category:".data ++ L2 ++ "]]".data ++ S) = true := by
    rw [isInfixB_spec]
    refine ⟨P, M ++ "[[Category:".data ++ L2 ++ "]]".data ++ S, ?_⟩
    simp [List.append_assoc]
  have hidxC1 : indexOfSub ("[[Category:".data ++ L1 ++ "]]".data)
      (P ++ "[[Category:".data ++ L1 ++ "]]".data ++ M
        ++ "[[Category:".data ++ L2 ++ "]]".data ++ S) = some P.length := by
    apply indexOfSub_intro
    · have hg : (P ++ "[[Category:".data ++ L1 ++ "]]".data ++ M
          ++ "[[Category:".data ++ L2 ++ "]]".data ++ S)
          = P ++ (("[[Category:".data ++ L1 ++ "]]".data)
            ++ (M ++ "[[Category:".data ++ L2 ++ "]]".data ++ S)) := by
        simp [List.append_assoc]
      rw [hg, List.drop_left]
      rw [List.isPrefixOf_iff_prefix]
      exact List.prefix_append _ _
    · intro j hj
      have hspec := (indexOfSub_some_spec _ _ _ h1).2 j hj
      cases hc : ("[[Category:".data ++ L1 ++ "]]".data).isPrefixOf
          ((P ++ "[[Category:".data ++ L1 ++ "]]".data ++ M
            ++ "[[Category:".data ++ L2 ++ "]]".data ++ S).drop j) with
      | false => rfl
      | true =>
        have := prefixOf_trans (p := "[[Category:".data)
          ⟨L1 ++ "]]".data, by simp [List.append_assoc]⟩ hc
        rw [this] at hspec
        cases hspec
  have hrepl : replaceAll ("[[Category:".data ++ L1 ++ "]]".data) []
      (P ++ "[[Category:".data ++ L1 ++ "]]".data ++ M
        ++ "[[Category:".data ++ L2 ++ "]]".data ++ S)
      = P ++ M ++ "[[Category:".data ++ L2 ++ "]]".data ++ S := by
    rw [replaceAll_first_occurrence _ _ (by simp) _ _ hidxC1]
    have htk : (P ++ "[[Category:".data ++ L1 ++ "]]".data ++ M
        ++ "[[Category:".data ++ L2 ++ "]]".data ++ S).take P.length = P := by
      have hg : P ++ "[[Category:".data ++ L1 ++ "]]".data ++ M
          ++ "[[Category:".data ++ L2 ++ "]]".data ++ S
          = P ++ ("[[Category:".data ++ L1 ++ "]]".data ++ M
            ++ "[[Category:".data ++ L2 ++ "]]".data ++ S) := by
        simp [List.append_assoc]
      rw [hg]
      exact List.take_left _ _
    have hdr : (P ++ "[[Category:".data ++ L1 ++ "]]".data ++ M
        ++ "[[Category:".data ++ L2 ++ "]]".data ++ S).drop
          (P.length + ("[[Category:".data ++ L1 ++ "]]".data).length)
        = M ++ "[[Category:".data ++ L2 ++ "]]".data ++ S := by
      have hg : P ++ "[[Category:".data ++ L1 ++ "]]".data ++ M
          ++ "[[Category:".data ++ L2 ++ "]]".data ++ S
          = (P ++ ("[[Category:".data ++ L1 ++ "]]".data))
            ++ (M ++ "[[Category:".data ++ L2 ++ "]]".data ++ S) := by
        simp [List.append_assoc]
      rw [hg]
      have hlen : (P ++ ("[[Category:".data ++ L1 ++ "]]".data)).length
          = P.length + ("[[Category:".data ++ L1 ++ "]]".data).length := by
        rw [List.length_append]
      rw [← hlen]
      exact List.drop_left _ _
    rw [htk, hdr, replaceAll_of_no_occurrence _ _ (by simp) _ h2]
    simp [List.append_assoc]
  have hne2 : pyStrip (P ++ M ++ "[[Category:".data ++ L2 ++ "]]".data ++ S) ≠ [] := by
    apply pyStrip_ne_nil (c := '[')
    · simp
    · decide
  have hinf2 : isInfixB ("[[Category:".data ++ L2 ++ "]]".data)
      (pyStrip (P ++ M ++ "[[Category:".data ++ L2 ++ "]]".data ++ S)) = true := by
    rw [isInfixB_spec]
    apply infix_pyStrip
    · simp
    · rfl
    · unfold lastNotWs
      have hg : "[[Category:".data ++ L2 ++ "]]".data
          = ("[[Category:".data ++ L2) ++ "]]".data := by
        simp [List.append_assoc]
      rw [hg, List.reverse_append]
      rfl
    · refine ⟨P ++ M, S, ?_⟩
      simp [List.append_assoc]
  refine ⟨?_, hinf2⟩
  unfold categoryStep
  rw [if_pos hinf1, h1]
  show categoryStepCore
      (P ++ "[[Category:".data ++ L1 ++ "]]".data ++ M
        ++ "[[Category:".data ++ L2 ++ "]]".data ++ S) P.length
    = some (some (pyStrip (P ++ M ++ "[[Category:".data ++ L2 ++ "]]".data ++ S)), [L1])
  unfold categoryStepCore
  rw [hdrop0, h3]
  show categoryStepTag
      (P ++ "[[Category:".data ++ L1 ++ "]]".data ++ M
        ++ "[[Category:".data ++ L2 ++ "]]".data ++ S)
      ((L1 ++ "]]".data ++ M ++ "[[Category:".data ++ L2 ++ "]]".data ++ S).take L1.length)
    = some (some (pyStrip (P ++ M ++ "[[Category:".data ++ L2 ++ "]]".data ++ S)), [L1])
  rw [htake]
  unfold categoryStepTag
  rw [if_pos hassert, hrepl, if_neg hne2]

/-- Witness for C9 (amended) on a concrete line with two distinct-label
category constructs: only the first is recorded and removed; the second
remains. -/
theorem claim_C9_witness :
    categoryStep "p [[Category:A]] m [[Category:B]] s".data =
        some (some "p  m [[Category:B]] s".data, ["A".data])
    ∧ isInfixB "[[Category:B]]".data "p  m [[Category:B]] s".data = true := by
  have h := claim_C9_categoryStep "p ".data "A".data " m ".data "B".data " s".data
    (by decide) (by decide) (by decide)
  exact ⟨h.1, h.2⟩

theorem isInfixB_singleton (c : Char) (l : Str) : isInfixB [c] l = true ↔ c ∈ l := by
  rw [isInfixB_spec]
  constructor
  · intro h
    exact h.subset (List.mem_singleton_self c)
  · intro h
    obtain ⟨s, t, rfl⟩ := List.append_of_mem h
    exact ⟨s, t, by simp⟩

theorem langStep_id (lang l : Str)
    (h1 : ('<' :: lang ++ ['>']).isPrefixOf (pyLower l) = false)
    (h2 : ('<' :: lang ++ [' ']).isPrefixOf l = false)
    (h3 : ("</".data ++ lang ++ ['>']).isSuffixOf (pyRStrip l) = false) :
    langStep lang l = l := by
  have hs1 : langStep1 lang l = l := by
    unfold langStep1
    rw [if_neg (by rw [h1]; exact Bool.false_ne_true)]
    rw [if_neg (fun hc => by rw [h2] at hc; exact Bool.false_ne_true hc.1)]
  have hne : pyRStrip l ≠ ("</".data ++ lang ++ ['>']) := by
    intro he
    rw [he] at h3
    have htrue : ("</".data ++ lang ++ ['>']).isSuffixOf
        ("</".data ++ lang ++ ['>']) = true :=
      List.isSuffixOf_iff_suffix.mpr (List.suffix_refl _)
    rw [htrue] at h3
    cases h3
  have hs2 : langStep2 lang l = l := by
    unfold langStep2
    rw [if_neg hne]
    rw [if_neg (by rw [h3]; exact Bool.false_ne_true)]
  unfold langStep
  rw [hs1, hs2]

theorem foldl_id {α : Type} (f : Str → α → Str) :
    ∀ (ls : List α) (l : Str), (∀ a ∈ ls, f l a = l) →
      ls.foldl (fun acc a => f acc a) l = l := by
  intro ls
  induction ls with
  | nil => intro l _; rfl
  | cons a as ih =>
    intro l h
    simp only [List.foldl_cons]
    rw [h a (List.mem_cons_self a as)]
    exact ih l (fun b hb => h b (List.mem_cons_of_mem _ hb))

theorem langLoop_id (l : Str)
    (h : ∀ lang ∈ langNames, langStep lang l = l) : langLoop l = l := by
  unfold langLoop
  exact foldl_id (fun acc lang => langStep lang acc) langNames l h

theorem un_div_id (l : Str)
    (h : ¬("<div ".data.isPrefixOf (pyStrip l) ∧ "</div>".data.isSuffixOf (pyStrip l))) :
    un_div l = some l := by
  unfold un_div
  rw [if_neg h]

theorem categoryStep_id (l : Str) (h : isInfixB "[[Category:".data l = false) :
    categoryStep l = some (some l, []) := by
  unfold categoryStep
  rw [if_neg (by simp [h])]

theorem cleanLine_inert (l : Str) (h : inertLine l = true) :
    cleanLine l = some (some l, []) := by
  simp only [inertLine, Bool.and_eq_true, Bool.not_eq_true', List.all_eq_true] at h
  obtain ⟨⟨⟨⟨⟨⟨hltr, hlang⟩, hdiv⟩, htoc⟩, hcat⟩, hcolcat⟩, huser⟩ := h
  have e1 : replaceAll [ltrChar] [] l = l := by
    apply replaceAll_of_no_occurrence _ _ (by simp) _ hltr
  have e2 : langLoop l = l := by
    apply langLoop_id
    intro lang hl
    have hx := hlang lang hl
    simp only [Bool.and_eq_true, Bool.not_eq_true'] at hx
    exact langStep_id lang l hx.1.1 hx.1.2 hx.2
  have e3 : un_div l = some l := by
    apply un_div_id
    intro hc
    rw [hc.1, hc.2] at hdiv
    simp at hdiv
  have e5 : categoryStep l = some (some l, []) := categoryStep_id l hcat
  have htoc2 : l ∉ tocTokens := of_decide_eq_false htoc
  unfold cleanLine
  rw [e1, e2, e3]
  show cleanLineTail l l = some (some l, [])
  unfold cleanLineTail
  rw [if_neg htoc2, ite_self]
  unfold cleanLineCat
  rw [e5]
  show some (some (userStep (colonCategoryStep l)), ([] : List Str)) = some (some l, [])
  unfold userStep colonCategoryStep
  rw [if_neg (fun hc => Bool.false_ne_true (hcolcat ▸ hc))]
  rw [if_neg (fun hc => Bool.false_ne_true (huser ▸ hc))]

theorem cleanFold_inert :
    ∀ (lines : List Str) (acc : List Str × List Str),
      (∀ l ∈ lines, cleanLine l = some (some l, [])) →
      lines.foldlM cleanStep acc = some (acc.1 ++ lines, acc.2) := by
  intro lines
  induction lines with
  | nil => intro acc _; simp
  | cons a as ih =>
    intro acc h
    rw [List.foldlM_cons]
    have ha : cleanStep acc a = some (acc.1 ++ [a], acc.2) := by
      unfold cleanStep
      rw [h a (List.mem_cons_self a as)]
      simp
    rw [ha]
    show as.foldlM cleanStep (acc.1 ++ [a], acc.2) = some (acc.1 ++ a :: as, acc.2)
    rw [ih _ (fun b hb => h b (List.mem_cons_of_mem _ hb))]
    simp

/-- Cleaned text on inert input is the input itself. -/
theorem cleanup_mediawiki_inert (x : Str)
    (h : (splitNl x).all inertLine = true) :
    cleanup_mediawiki x = some (x, []) := by
  unfold cleanup_mediawiki
  rw [cleanFold_inert (splitNl x) ([], [])
    (fun l hl => cleanLine_inert l (List.all_eq_true.mp h l hl))]
  show some (joinNl ([] ++ splitNl x), ([] : List Str)) = some (x, [])
  rw [List.nil_append, joinNl_splitNl]

/-- Counterexample for claim C7 as stated: `[[Category:A]][[Category:B]]`
contains no div wrapper and no table-of-contents control token, yet
cleaning is not idempotent on it — the first pass extracts only the first
category construct, and a second pass extracts the next one. -/
theorem claim_C7_counterexample :
    (isInfixB "<div".data "[[Category:A]][[Category:B]]".data = false
      ∧ isInfixB "__TOC__".data "[[Category:A]][[Category:B]]".data = false
      ∧ isInfixB "__FORCETOC__".data "[[Category:A]][[Category:B]]".data = false
      ∧ isInfixB "__NOTOC__".data "[[Category:A]][[Category:B]]".data = false)
    ∧ (cleanupText "[[Category:A]][[Category:B]]".data).bind cleanupText
        ≠ cleanupText "[[Category:A]][[Category:B]]".data := by
  refine ⟨⟨by decide, by decide, by decide, by decide⟩, by decide⟩

/-- Claim C7 (amended): cleaning is the identity — hence idempotent — on
fully clean text, i.e. text whose every line is inert: no LEFT-TO-RIGHT
marks, no custom language-tag forms, no div wrapper, not a TOC token, and
no category / user link constructs.  (For merely div-free and TOC-free
text idempotence fails; see the counterexample.) -/
theorem claim_C7_cleanup_idempotent (x : Str)
    (h : (splitNl x).all inertLine = true) :
    cleanup_mediawiki x = some (x, [])
    ∧ (cleanupText x).bind cleanupText = cleanupText x := by
  have h1 := cleanup_mediawiki_inert x h
  refine ⟨h1, ?_⟩
  have h2 : cleanupText x = some x := by
    unfold cleanupText
    rw [h1]
    rfl
  rw [h2]
  show cleanupText x = some x
  exact h2

/-- Witness for C7 (amended) on a concrete two-line inert text. -/
theorem claim_C7_witness :
    cleanup_mediawiki "hello\nworld".data = some ("hello\nworld".data, [])
    ∧ (cleanupText "hello\nworld".data).bind cleanupText
        = cleanupText "hello\nworld".data :=
  claim_C7_cleanup_idempotent "hello\nworld".data (by decide)

theorem charEq_of_toNat {x y : Char} (h : x.toNat = y.toNat) : x = y :=
  Char.eq_of_val_eq (UInt32.toNat.inj h)

theorem strCmp_eq_iff : ∀ a b : Str, strCmp a b = .eq ↔ a = b := by
  intro a
  induction a with
  | nil =>
    intro b
    cases b <;> simp [strCmp]
  | cons x xs ih =>
    intro b
    cases b with
    | nil => simp [strCmp]
    | cons y ys =>
      simp only [strCmp]
      split
      · rename_i hlt
        constructor
        · intro hc; cases hc
        · intro hc
          injection hc with h1 h2
          subst h1
          omega
      · split
        · rename_i hlt hgt
          constructor
          · intro hc; cases hc
          · intro hc
            injection hc with h1 h2
            subst h1
            omega
        · rename_i hlt hgt
          have hxy : x = y := charEq_of_toNat (by omega)
          subst hxy
          rw [ih ys]
          constructor
          · intro hc; rw [hc]
          · intro hc
            injection hc

theorem strCmp_gt_iff : ∀ a b : Str, strCmp a b = .gt ↔ strCmp b a = .lt := by
  intro a
  induction a with
  | nil =>
    intro b
    cases b <;> simp [strCmp]
  | cons x xs ih =>
    intro b
    cases b with
    | nil => simp [strCmp]
    | cons y ys =>
      simp only [strCmp]
      by_cases h1 : x.toNat < y.toNat
      · rw [if_pos h1, if_neg (by omega), if_pos h1]
        constructor
        · intro hc; cases hc
        · intro hc; cases hc
      · by_cases h2 : y.toNat < x.toNat
        · rw [if_neg h1, if_pos h2, if_pos h2]
          constructor
          · intro _; rfl
          · intro _; rfl
        · rw [if_neg h1, if_neg h2, if_neg h2, if_neg h1]
          exact ih ys

theorem strCmp_lt_trans :
    ∀ a b c : Str, strCmp a b = .lt → strCmp b c = .lt → strCmp a c = .lt := by
  intro a
  induction a with
  | nil =>
    intro b c hab hbc
    cases c with
    | nil =>
      cases b with
      | nil => cases hab
      | cons y ys => cases hbc
    | cons z zs => simp [strCmp]
  | cons x xs ih =>
    intro b c hab hbc
    cases b with
    | nil => cases hab
    | cons y ys =>
      cases c with
      | nil => cases hbc
      | cons z zs =>
        simp only [strCmp] at hab hbc ⊢
        by_cases h1 : x.toNat < y.toNat
        · by_cases h2 : y.toNat < z.toNat
          · rw [if_pos (by omega : x.toNat < z.toNat)]
          · rw [if_neg h2] at hbc
            by_cases h3 : z.toNat < y.toNat
            · rw [if_pos h3] at hbc; cases hbc
            · have hyz : y = z := charEq_of_toNat (by omega)
              subst hyz
              rw [if_pos h1]
        · rw [if_neg h1] at hab
          by_cases h2 : y.toNat < x.toNat
          · rw [if_pos h2] at hab; cases hab
          · have hxy : x = y := charEq_of_toNat (by omega)
            subst hxy
            rw [if_neg h2] at hab
            by_cases h3 : x.toNat < z.toNat
            · rw [if_pos h3]
            · by_cases h4 : z.toNat < x.toNat
              · rw [if_neg h3, if_pos h4] at hbc; cases hbc
              · have hxz : x = z := charEq_of_toNat (by omega)
                subst hxz
                rw [if_neg h3, if_neg h3] at hbc ⊢
                exact ih ys zs hab hbc

theorem optStrCmp_eq_iff : ∀ a b : Option Str, optStrCmp a b = .eq ↔ a = b := by
  intro a b
  cases a <;> cases b <;> simp [optStrCmp, strCmp_eq_iff]

theorem optStrCmp_gt_iff :
    ∀ a b : Option Str, optStrCmp a b = .gt ↔ optStrCmp b a = .lt := by
  intro a b
  cases a <;> cases b <;> simp [optStrCmp, strCmp_gt_iff]

theorem optStrCmp_lt_trans :
    ∀ a b c : Option Str, optStrCmp a b = .lt → optStrCmp b c = .lt →
      optStrCmp a c = .lt := by
  intro a b c hab hbc
  cases a <;> cases b <;> cases c <;> simp_all [optStrCmp]
  exact strCmp_lt_trans _ _ _ hab hbc

theorem keyLE_iff (r s : Record) : keyLE r s = true ↔ keyCmp r s ≠ .gt := by
  unfold keyLE
  cases keyCmp r s <;> simp

theorem keyCmp_eq_iff (r s : Record) :
    keyCmp r s = .eq ↔ r.date = s.date ∧ r.title = s.title := by
  unfold keyCmp
  cases hd : optStrCmp r.date s.date <;>
    simp_all [Ordering.then, optStrCmp_eq_iff, strCmp_eq_iff]
  · intro he
    rw [he] at hd
    have : optStrCmp s.date s.date = .eq := (optStrCmp_eq_iff _ _).mpr rfl
    rw [this] at hd
    cases hd
  · intro he
    rw [he] at hd
    have : optStrCmp s.date s.date = .eq := (optStrCmp_eq_iff _ _).mpr rfl
    rw [this] at hd
    cases hd

theorem keyCmp_gt_iff (r s : Record) : keyCmp r s = .gt ↔ keyCmp s r = .lt := by
  unfold keyCmp
  cases hd : optStrCmp r.date s.date with
  | lt =>
    have hd2 : optStrCmp s.date r.date = .gt := (optStrCmp_gt_iff _ _).mpr hd
    rw [hd2]
    simp [Ordering.then]
  | eq =>
    have he : r.date = s.date := (optStrCmp_eq_iff _ _).mp hd
    have hd2 : optStrCmp s.date r.date = .eq := (optStrCmp_eq_iff _ _).mpr he.symm
    rw [hd2]
    simp [Ordering.then, strCmp_gt_iff]
  | gt =>
    have hd2 : optStrCmp s.date r.date = .lt := (optStrCmp_gt_iff _ _).mp hd
    rw [hd2]
    simp [Ordering.then]

theorem keyCmp_lt_trans (a b c : Record) (hab : keyCmp a b = .lt)
    (hbc : keyCmp b c = .lt) : keyCmp a c = .lt := by
  unfold keyCmp at hab hbc ⊢
  cases hd1 : optStrCmp a.date b.date with
  | lt =>
    cases hd2 : optStrCmp b.date c.date with
    | lt =>
      rw [optStrCmp_lt_trans _ _ _ hd1 hd2]
      simp [Ordering.then]
    | eq =>
      have he : b.date = c.date := (optStrCmp_eq_iff _ _).mp hd2
      rw [← he, hd1]
      simp [Ordering.then]
    | gt =>
      rw [hd2] at hbc
      simp [Ordering.then] at hbc
  | eq =>
    have he : a.date = b.date := (optStrCmp_eq_iff _ _).mp hd1
    rw [hd1] at hab
    simp only [Ordering.then] at hab
    cases hd2 : optStrCmp b.date c.date with
    | lt =>
      rw [he, hd2]
      simp [Ordering.then]
    | eq =>
      have he2 : b.date = c.date := (optStrCmp_eq_iff _ _).mp hd2
      rw [hd2] at hbc
      simp only [Ordering.then] at hbc
      have he3 : optStrCmp a.date c.date = .eq :=
        (optStrCmp_eq_iff _ _).mpr (he.trans he2)
      rw [he3]
      simp only [Ordering.then]
      exact strCmp_lt_trans _ _ _ hab hbc
    | gt =>
      rw [hd2] at hbc
      simp [Ordering.then] at hbc
  | gt =>
    rw [hd1] at hab
    simp [Ordering.then] at hab

theorem keyLE_total : ∀ r s : Record, (keyLE r s || keyLE s r) = true := by
  intro r s
  by_cases h : keyCmp r s = .gt
  · have h2 : keyCmp s r = .lt := (keyCmp_gt_iff _ _).mp h
    have h3 : keyLE s r = true := (keyLE_iff _ _).mpr (by rw [h2]; intro hc; cases hc)
    rw [h3]
    simp
  · have h3 : keyLE r s = true := (keyLE_iff _ _).mpr h
    rw [h3]
    simp

theorem keyLE_trans (a b c : Record) (hab : keyLE a b = true)
    (hbc : keyLE b c = true) : keyLE a c = true := by
  rw [keyLE_iff] at hab hbc ⊢
  cases h1 : keyCmp a b with
  | gt => exact absurd h1 hab
  | lt =>
    cases h2 : keyCmp b c with
    | gt => exact absurd h2 hbc
    | lt =>
      rw [keyCmp_lt_trans a b c h1 h2]
      intro hc; cases hc
    | eq =>
      obtain ⟨hd, ht⟩ := (keyCmp_eq_iff _ _).mp h2
      have : keyCmp a c = keyCmp a b := by
        unfold keyCmp
        rw [← hd, ← ht]
      rw [this, h1]
      intro hc; cases hc
  | eq =>
    obtain ⟨hd, ht⟩ := (keyCmp_eq_iff _ _).mp h1
    have he : keyCmp a c = keyCmp b c := by
      unfold keyCmp
      rw [hd, ht]
    rw [he]
    exact hbc

theorem insertRec_perm (r : Record) : ∀ l, (insertRec r l).Perm (r :: l) := by
  intro l
  induction l with
  | nil => exact List.Perm.refl _
  | cons x xs ih =>
    unfold insertRec
    split
    · exact List.Perm.refl _
    · exact List.Perm.trans (List.Perm.cons x ih) (List.Perm.swap r x xs)

theorem sortRevisions_perm : ∀ l : List Record, (sortRevisions l).Perm l := by
  intro l
  induction l with
  | nil => exact List.Perm.refl _
  | cons r rs ih =>
    unfold sortRevisions
    exact List.Perm.trans (insertRec_perm r _) (List.Perm.cons r ih)

theorem insertRec_pairwise (r : Record) :
    ∀ l, l.Pairwise (fun a b => keyLE a b = true) →
      (insertRec r l).Pairwise (fun a b => keyLE a b = true) := by
  intro l
  induction l with
  | nil => intro _; exact List.pairwise_singleton _ _
  | cons x xs ih =>
    intro h
    rw [List.pairwise_cons] at h
    obtain ⟨hx, hxs⟩ := h
    unfold insertRec
    split
    · rename_i hle
      rw [List.pairwise_cons]
      refine ⟨?_, ?_⟩
      · intro b hb
        rcases List.mem_cons.mp hb with rfl | hb2
        · exact hle
        · exact keyLE_trans r x b hle (hx b hb2)
      · rw [List.pairwise_cons]
        exact ⟨hx, hxs⟩
    · rename_i hnle
      rw [List.pairwise_cons]
      refine ⟨?_, ih hxs⟩
      intro b hb
      have hmem := (insertRec_perm r xs).mem_iff.mp hb
      rcases List.mem_cons.mp hmem with rfl | hb2
      · have htot := keyLE_total b x
        rw [Bool.or_eq_true] at htot
        rcases htot with h1 | h1
        · exact absurd h1 hnle
        · exact h1
      · exact hx b hb2

theorem sortRevisions_pairwise :
    ∀ l : List Record, (sortRevisions l).Pairwise (fun a b => keyLE a b = true) := by
  intro l
  induction l with
  | nil => exact List.Pairwise.nil
  | cons r rs ih => exact insertRec_pairwise r _ ih

theorem processRecord_committed (ctx : Ctx) (tally : Tally) (r : Record)
    (evs : List Ev) (crs : List Record) (tally2 : Tally)
    (h : processRecord ctx tally r = some (evs, crs, tally2)) :
    (crs = [] ∨ crs = [r])
    ∧ ∀ r2 ∈ crs, ignore_by_pfx r2.title ctx.pfxsToIgnore = false := by
  unfold processRecord at h
  by_cases h1 : r.content = none ∧ ¬ "File:".data.isPrefixOf r.title = true
  · rw [if_pos h1] at h; cases h
  · rw [if_neg h1] at h
    by_cases h2 : ignore_by_pfx r.title ctx.pfxsToIgnore = true
    · rw [if_pos h2] at h
      cases h
      exact ⟨Or.inl rfl, by intro r2 hr2; simp at hr2⟩
    · rw [if_neg h2] at h
      have h2f : ignore_by_pfx r.title ctx.pfxsToIgnore = false := by
        simpa using h2
      by_cases h3 : "File:".data.isPrefixOf r.title = true
      · rw [if_pos h3] at h
        cases hcf : commit_file ctx r.title (joinedFilename ctx r) r.date
            r.username r.content r.comment tally with
        | none => rw [hcf] at h; cases h
        | some pr =>
          obtain ⟨evs2, t2⟩ := pr
          rw [hcf] at h
          cases h
          refine ⟨Or.inr rfl, ?_⟩
          intro r2 hr2
          have he := List.mem_singleton.mp hr2
          subst he
          exact h2f
      · rw [if_neg h3] at h
        by_cases h4 : "Template:".data.isPrefixOf r.title = true
        · rw [if_pos h4] at h
          cases h
          exact ⟨Or.inl rfl, by intro r2 hr2; simp at hr2⟩
        · rw [if_neg h4] at h
          by_cases h5 : joinedFilename ctx r ≠ none
          · rw [if_pos h5] at h; cases h
          · rw [if_neg h5] at h
            split at h
            · cases h
            · split at h
              · cases h
              · split at h
                · cases h
                · cases h
                  refine ⟨Or.inr rfl, ?_⟩
                  intro r2 hr2
                  have he := List.mem_singleton.mp hr2
                  subst he
                  exact h2f
              · cases h
                exact ⟨Or.inl rfl, by intro r2 hr2; simp at hr2⟩

theorem commitRunT_sublist (ctx : Ctx) :
    ∀ (rs : List Record) (tally : Tally),
      (commitRunT ctx tally rs).2.1.Sublist rs := by
  intro rs
  induction rs with
  | nil => intro tally; exact List.nil_sublist _
  | cons r rs ih =>
    intro tally
    unfold commitRunT
    cases hp : processRecord ctx tally r with
    | none => exact List.nil_sublist _
    | some res =>
      obtain ⟨evs, crs, tally2⟩ := res
      show (crs ++ (commitRunT ctx tally2 rs).2.1).Sublist (r :: rs)
      rcases (processRecord_committed ctx tally r evs crs tally2 hp).1 with rfl | rfl
      · simpa using List.Sublist.cons r (ih tally2)
      · simpa using List.Sublist.cons₂ r (ih tally2)

theorem commitRunT_filter (ctx : Ctx) :
    ∀ (rs : List Record) (tally : Tally) (r2 : Record),
      r2 ∈ (commitRunT ctx tally rs).2.1 →
      ignore_by_pfx r2.title ctx.pfxsToIgnore = false := by
  intro rs
  induction rs with
  | nil => intro tally r2 h; simp [commitRunT] at h
  | cons r rs ih =>
    intro tally r2 h
    unfold commitRunT at h
    cases hp : processRecord ctx tally r with
    | none => rw [hp] at h; simp at h
    | some res =>
      obtain ⟨evs, crs, tally2⟩ := res
      rw [hp] at h
      have h2 : r2 ∈ crs ++ (commitRunT ctx tally2 rs).2.1 := h
      rcases List.mem_append.mp h2 with h3 | h3
      · exact (processRecord_committed ctx tally r evs crs tally2 hp).2 r2 h3
      · exact ih tally2 r2 h3

/-- Claim C1: the commit-emission pipeline drains the staging store in
non-decreasing `(date, title)` order — the records that actually get
committed form a sequence pairwise ordered by the SQL sort key (date as a
sortable string, title as secondary tiebreak), for every store, context
and starting tally. -/
theorem claim_C1_commit_order (ctx : Ctx) (tally : Tally) (store : List Record) :
    (commit_revisions ctx tally store).2.1.Pairwise (fun a b => keyLE a b = true) := by
  unfold commit_revisions
  exact List.Pairwise.sublist (commitRunT_sublist ctx (sortRevisions store) tally)
    (sortRevisions_pairwise store)

theorem extractStep_records (bl pf : List Str) (st : ExtState) (ev : XmlEv)
    (st2 : ExtState) (rs : List Record)
    (h : extractStep bl pf st ev = some (st2, rs)) :
    ∀ r2 ∈ rs,
      bl.contains r2.username = false
      ∧ (r2.content = none → "File:".data.isPrefixOf r2.title = true) := by
  intro r2 hr2
  obtain ⟨stt, stf, std, stc, stu, stx⟩ := st
  cases ev with
  | start tag0 enc =>
    unfold extractStep at h
    dsimp only at h
    by_cases s1 : clean_tag tag0 = "page".data
    · rw [if_pos s1] at h
      by_cases s2 : stt = none ∧ std = none
      · rw [if_pos s2] at h
        cases h
        exact absurd hr2 (List.not_mem_nil r2)
      · rw [if_neg s2] at h
        cases h
    · rw [if_neg s1] at h
      by_cases s3 : clean_tag tag0 = "revision".data ∨ clean_tag tag0 = "upload".data
      · rw [if_pos s3] at h
        by_cases s4 : std = none
        · rw [if_pos s4] at h
          cases h
          exact absurd hr2 (List.not_mem_nil r2)
        · rw [if_neg s4] at h
          cases h
      · rw [if_neg s3] at h
        by_cases s5 : clean_tag tag0 = "contents".data
        · rw [if_pos s5] at h
          by_cases s6 : enc = some "base64".data
          · rw [if_pos s6] at h
            cases h
            exact absurd hr2 (List.not_mem_nil r2)
          · rw [if_neg s6] at h
            cases h
        · rw [if_neg s5] at h
          cases h
          exact absurd hr2 (List.not_mem_nil r2)
  | stop tag0 txt =>
    unfold extractStep at h
    dsimp only at h
    by_cases t1 : clean_tag tag0 = "title".data
    · rw [if_pos t1] at h
      cases txt with
      | none => cases h
      | some t =>
        cases h
        exact absurd hr2 (List.not_mem_nil r2)
    · rw [if_neg t1] at h
      by_cases t2 : clean_tag tag0 = "timestamp".data
      · rw [if_pos t2] at h
        cases txt with
        | none => cases h
        | some t =>
          cases h
          exact absurd hr2 (List.not_mem_nil r2)
      · rw [if_neg t2] at h
        by_cases t3 : clean_tag tag0 = "comment".data
        · rw [if_pos t3] at h
          cases txt with
          | none =>
            cases h
            exact absurd hr2 (List.not_mem_nil r2)
          | some t =>
            cases h
            exact absurd hr2 (List.not_mem_nil r2)
        · rw [if_neg t3] at h
          by_cases t4 : clean_tag tag0 = "username".data
          · rw [if_pos t4] at h
            cases txt with
            | none => cases h
            | some t =>
              cases h
              exact absurd hr2 (List.not_mem_nil r2)
          · rw [if_neg t4] at h
            by_cases t5 : clean_tag tag0 = "text".data
            · rw [if_pos t5] at h
              cases h
              exact absurd hr2 (List.not_mem_nil r2)
            · rw [if_neg t5] at h
              by_cases t6 : clean_tag tag0 = "contents".data
              · rw [if_pos t6] at h
                cases txt with
                | none => cases h
                | some t =>
                  cases h
                  exact absurd hr2 (List.not_mem_nil r2)
              · rw [if_neg t6] at h
                by_cases t7 : clean_tag tag0 = "filename".data
                · rw [if_pos t7] at h
                  cases txt with
                  | none => cases h
                  | some t =>
                    cases h
                    exact absurd hr2 (List.not_mem_nil r2)
                · rw [if_neg t7] at h
                  by_cases t8 : clean_tag tag0 = "revision".data
                  · rw [if_pos t8] at h
                    by_cases hb : bl.contains (normStr stu) = true
                    · rw [if_pos hb] at h
                      cases h
                      exact absurd hr2 (List.not_mem_nil r2)
                    · rw [if_neg hb] at h
                      cases stt with
                      | none => cases h
                      | some title =>
                        dsimp only at h
                        by_cases hf : "File:".data.isPrefixOf title = true
                        · rw [if_pos hf] at h
                          cases h
                          exact absurd hr2 (List.not_mem_nil r2)
                        · rw [if_neg hf] at h
                          by_cases hig : ignore_by_pfx title pf = true
                          · rw [if_pos hig] at h
                            cases h
                            exact absurd hr2 (List.not_mem_nil r2)
                          · rw [if_neg hig] at h
                            cases stx with
                            | none =>
                              cases h
                              exact absurd hr2 (List.not_mem_nil r2)
                            | some v =>
                              cases h
                              have he := List.mem_singleton.mp hr2
                              subst he
                              refine ⟨Bool.of_not_eq_true hb, ?_⟩
                              intro hc
                              exact Option.noConfusion hc
                  · rw [if_neg t8] at h
                    by_cases t9 : clean_tag tag0 = "upload".data
                    · rw [if_pos t9] at h
                      cases stt with
                      | none => cases h
                      | some title =>
                        dsimp only at h
                        by_cases hf : "File:".data.isPrefixOf title = true
                        · rw [if_pos hf] at h
                          by_cases hb : bl.contains (normStr stu) = true
                          · rw [if_pos hb] at h
                            cases h
                            exact absurd hr2 (List.not_mem_nil r2)
                          · rw [if_neg hb] at h
                            by_cases hcond : stx ≠ none ∨ "File:".data.isPrefixOf title = true
                            · rw [if_pos hcond] at h
                              cases h
                              have he := List.mem_singleton.mp hr2
                              subst he
                              refine ⟨Bool.of_not_eq_true hb, ?_⟩
                              intro hc
                              exact hf
                            · rw [if_neg hcond] at h
                              cases h
                              exact absurd hr2 (List.not_mem_nil r2)
                        · rw [if_neg hf] at h
                          cases h
                    · rw [if_neg t9] at h
                      by_cases t10 : clean_tag tag0 = "page".data
                      · rw [if_pos t10] at h
                        by_cases hd : std = none
                        · rw [if_pos hd] at h
                          cases h
                          exact absurd hr2 (List.not_mem_nil r2)
                        · rw [if_neg hd] at h
                          cases h
                      · rw [if_neg t10] at h
                        cases h
                        exact absurd hr2 (List.not_mem_nil r2)

theorem extractRunT_records (bl pf : List Str) :
    ∀ (evs : List XmlEv) (st : ExtState) (r2 : Record),
      r2 ∈ (extractRunT bl pf st evs).2.1 →
      bl.contains r2.username = false
      ∧ (r2.content = none → "File:".data.isPrefixOf r2.title = true) := by
  intro evs
  induction evs with
  | nil =>
    intro st r2 h
    simp [extractRunT] at h
  | cons e es ih =>
    intro st r2 h
    unfold extractRunT at h
    cases hs : extractStep bl pf st e with
    | none =>
      rw [hs] at h
      simp at h
    | some pr =>
      obtain ⟨st3, rs⟩ := pr
      rw [hs] at h
      have h2 : r2 ∈ rs ++ (extractRunT bl pf st3 es).2.1 := h
      rcases List.mem_append.mp h2 with h3 | h3
      · exact extractStep_records bl pf st e st3 rs hs r2 h3
      · exact ih st3 r2 h3

/-- Claim C5: in the staging store the content field is absent only when
the title begins with the file namespace prefix `File:` — equivalently,
every staged record whose title does not start with `File:` has a
non-absent content field. -/
theorem claim_C5_content_only_files (blocklist pfxs : List Str)
    (evs : List XmlEv) (r : Record)
    (hr : r ∈ (extract_revisions blocklist pfxs evs).2.1) :
    r.content = none → "File:".data.isPrefixOf r.title = true :=
  (extractRunT_records blocklist pfxs evs initExtState r hr).2

/-- Witness for C5: a concrete upload event sequence stages a record with
absent content whose title carries the `File:` prefix. -/
theorem claim_C5_witness :
    "File:".data.isPrefixOf
      (Record.title ⟨"File:X.png".data, none, none, [], none, []⟩) = true :=
  claim_C5_content_only_files [] pagePrefixesToIgnore
    [XmlEv.stop "title".data (some "File:X.png".data),
     XmlEv.stop "upload".data none]
    ⟨"File:X.png".data, none, none, [], none, []⟩ (by decide) rfl

/-- Claim C2: for every valid input event sequence, every record that
results in an emitted commit has a title that does not start with any of
the excluded namespace prefixes (Help:, MediaWiki:, Talk:, User:,
User talk:), and a username that is not a member of the blocklist. -/
theorem claim_C2_commit_filters (blocklist : List Str) (evs : List XmlEv)
    (ctx : Ctx) (tally : Tally)
    (hpf : ctx.pfxsToIgnore = pagePrefixesToIgnore) (r : Record)
    (hr : r ∈ (commit_revisions ctx tally
        (extract_revisions blocklist pagePrefixesToIgnore evs).2.1).2.1) :
    (∀ p ∈ pagePrefixesToIgnore, p.isPrefixOf r.title = false)
    ∧ blocklist.contains r.username = false := by
  unfold commit_revisions at hr
  constructor
  · have hig := commitRunT_filter ctx _ tally r hr
    rw [hpf] at hig
    unfold ignore_by_pfx at hig
    intro p hp
    exact Bool.of_not_eq_true (List.any_eq_false.mp hig p hp)
  · have hsub := commitRunT_sublist ctx
      (sortRevisions (extract_revisions blocklist pagePrefixesToIgnore evs).2.1) tally
    have hmem1 := hsub.subset hr
    have hmem2 := (sortRevisions_perm _).subset hmem1
    exact (extractRunT_records blocklist pagePrefixesToIgnore evs initExtState
      r hmem2).1

/-- Witness for C2: a concrete one-revision input whose record is committed
by the full pipeline; its title matches no excluded prefix and its
username is not in the blocklist. -/
theorem claim_C2_witness :
    (∀ p ∈ pagePrefixesToIgnore,
        p.isPrefixOf (Record.title ⟨"Apple".data, none, some "2020".data, [],
          some "hi".data, []⟩) = false)
    ∧ ["spammer".data].contains (Record.username ⟨"Apple".data, none,
        some "2020".data, [], some "hi".data, []⟩) = false :=
  claim_C2_commit_filters ["spammer".data]
    [XmlEv.stop "title".data (some "Apple".data),
     XmlEv.stop "timestamp".data (some "2020".data),
     XmlEv.stop "text".data (some "hi".data),
     XmlEv.stop "revision".data none]
    witnessCtx (fun _ => 0) rfl
    ⟨"Apple".data, none, some "2020".data, [], some "hi".data, []⟩
    (by decide)

/-- Counterexample for claim C4 as stated: for the record text
`#REDIRECT [[Target Page]]` (prefix `wiki/`), the rendered stub is written,
but no written file contains the line `redirect_to: /wiki/Target_Page/` —
`safe_for_yaml` wraps the URL in double quotes, so the actual line is
`redirect_to: /"wiki/Target_Page/"`. -/
theorem claim_C4_counterexample :
    writesContain "redirect_to: /wiki/Target_Page/".data
        (dump_revision witnessCtx "wiki/Apple.mediawiki".data "wiki/Apple.md".data
          "#REDIRECT [[Target Page]]".data "Apple".data (some "2020".data)) = false
    ∧ (dump_revision witnessCtx "wiki/Apple.mediawiki".data "wiki/Apple.md".data
        "#REDIRECT [[Target Page]]".data "Apple".data (some "2020".data)).isSome
        = true := by
  constructor
  · decide
  · decide

theorem safe_for_yaml_plain (v : Str)
    (hq : isInfixB [Char.ofNat 34] v = false)
    (ha : isInfixB [Char.ofNat 39] v = false) :
    safe_for_yaml v = Char.ofNat 34 :: v ++ [Char.ofNat 34] := by
  unfold safe_for_yaml
  rw [replaceAll_of_no_occurrence _ _ (by simp) _ hq]
  rw [replaceAll_of_no_occurrence _ _ (by simp) _ ha]

/-- Claim C4 (amended): for a record whose markup survives cleaning as
exactly `#REDIRECT [[<target>]]` (target free of newlines and of `]`, the
derived URL free of quote characters), `dump_revision` takes the redirect
branch: it writes the original markup and a rendered stub whose front
matter contains the line `redirect_to: /"<joined target URL>"` — the
site-relative URL additionally wrapped in double quotes by the
YAML-escaping helper — and the external transcoder is never invoked. -/
theorem claim_C4_redirect_stub (ctx : Ctx) (mw_filename md_filename : Str)
    (tgt title : Str) (date : Option Str) (cats : List Str)
    (hclean : cleanup_mediawiki ("#REDIRECT [[".data ++ tgt ++ "]]".data)
        = some ("#REDIRECT [[".data ++ tgt ++ "]]".data, cats))
    (hnl : '\n' ∉ tgt) (hbr : ']' ∉ tgt)
    (hq : isInfixB [Char.ofNat 34] (make_url tgt ctx.pfx) = false)
    (ha : isInfixB [Char.ofNat 39] (make_url tgt ctx.pfx) = false) :
    dump_revision ctx mw_filename md_filename
        ("#REDIRECT [[".data ++ tgt ++ "]]".data) title date
      = some (true,
          [Ev.write mw_filename ("#REDIRECT [[".data ++ tgt ++ "]]".data),
           Ev.write md_filename (redirectStub ctx title tgt date)])
    ∧ isInfixB
        ("redirect_to: /".data
          ++ Char.ofNat 34 :: (make_url tgt ctx.pfx ++ Char.ofNat 34 :: '\n' :: []))
        (redirectStub ctx title tgt date) = true
    ∧ ([Ev.write mw_filename ("#REDIRECT [[".data ++ tgt ++ "]]".data),
        Ev.write md_filename (redirectStub ctx title tgt date)]).filter isPandocEv
        = [] := by
  have hstrip : pyStrip ("#REDIRECT [[".data ++ tgt ++ "]]".data)
      = "#REDIRECT [[".data ++ tgt ++ "]]".data := by
    apply pyStrip_eq_self
    · rfl
    · rw [lastNotWs, List.reverse_append]
      rfl
  have hdrop : ("#REDIRECT [[".data ++ tgt ++ "]]".data).drop 12
      = tgt ++ "]]".data := by
    rw [List.append_assoc]
    exact List.drop_left "#REDIRECT [[".data (tgt ++ "]]".data)
  have htgt : redirectTarget ("#REDIRECT [[".data ++ tgt ++ "]]".data) = tgt := by
    rw [redirectTarget, hstrip, hdrop, dropLastN, List.length_append]
    have h2 : ("]]".data).length = 2 := rfl
    rw [h2, Nat.add_sub_cancel]
    exact List.take_left tgt "]]".data
  have hpre : "#REDIRECT [[".data.isPrefixOf
      ("#REDIRECT [[".data ++ tgt ++ "]]".data) = true := by
    rw [List.isPrefixOf_iff_prefix, List.append_assoc]
    exact List.prefix_append _ _
  have hsuf : "]]".data.isSuffixOf
      ("#REDIRECT [[".data ++ tgt ++ "]]".data) = true := by
    rw [List.isSuffixOf_iff_suffix]
    exact List.suffix_append _ _
  have hc1 : tgt.contains '\n' = false := by simp [hnl]
  have hc2 : tgt.contains ']' = false := by simp [hbr]
  have htaken : redirectTaken ("#REDIRECT [[".data ++ tgt ++ "]]".data) = true := by
    rw [redirectTaken, hstrip, hpre, hsuf, htgt, hc1, hc2]
    rfl
  refine ⟨?_, ?_, ?_⟩
  · unfold dump_revision
    rw [hclean]
    dsimp only
    rw [htaken, if_pos rfl, htgt]
  · rw [isInfixB_spec]
    refine ⟨"---\n".data ++ "title: ".data ++ safe_for_yaml title ++ ['\n']
        ++ "permalink: ".data ++ safe_for_yaml (make_url title ctx.pfx) ++ ['\n'],
      "date: ".data ++ pyShow date ++ ['\n'] ++ "---\n\n".data
        ++ "You should automatically be redirected to [".data ++ tgt
        ++ "](/".data ++ make_url tgt ctx.pfx ++ ")\n".data, ?_⟩
    rw [redirectStub, safe_for_yaml_plain _ hq ha]
    simp [List.append_assoc]
  · rfl

theorem claim_C4_redirect_stub_witness :
    dump_revision witnessCtx "wiki/Apple.mediawiki".data "wiki/Apple.md".data
        ("#REDIRECT [[".data ++ "Target Page".data ++ "]]".data)
        "Apple".data (some "2020".data)
      = some (true,
          [Ev.write "wiki/Apple.mediawiki".data
             ("#REDIRECT [[".data ++ "Target Page".data ++ "]]".data),
           Ev.write "wiki/Apple.md".data
             (redirectStub witnessCtx "Apple".data "Target Page".data
               (some "2020".data))])
    ∧ isInfixB
        ("redirect_to: /".data
          ++ Char.ofNat 34 :: (make_url "Target Page".data witnessCtx.pfx
              ++ Char.ofNat 34 :: '\n' :: []))
        (redirectStub witnessCtx "Apple".data "Target Page".data
          (some "2020".data)) = true
    ∧ ([Ev.write "wiki/Apple.mediawiki".data
          ("#REDIRECT [[".data ++ "Target Page".data ++ "]]".data),
        Ev.write "wiki/Apple.md".data
          (redirectStub witnessCtx "Apple".data "Target Page".data
            (some "2020".data))]).filter isPandocEv = [] :=
  claim_C4_redirect_stub witnessCtx "wiki/Apple.mediawiki".data
    "wiki/Apple.md".data "Target Page".data "Apple".data (some "2020".data) []
    (by decide) (by decide) (by decide) (by decide) (by decide)

/-- Claim C3: for a staged ordinary-page record on which the transcoder
exits non-zero or prints nothing, the record's trace is exactly: write the
cleaned markup, run pandoc, restore the pre-cleaning original text at the
raw-markup path, and hard-reset the working tree; no git commit happens
for the record, replaying the trace leaves the raw file holding the
original text, and the run continues with the remaining staged records
under the same tally. -/
theorem claim_C3_transcoder_failure (ctx : Ctx) (tally : Tally) (r : Record)
    (rest : List Record) (text text2 : Str) (cats : List Str) (rc : Nat)
    (out : Str)
    (hfn : r.filename = none)
    (hct : r.content = some text)
    (hig : ignore_by_pfx r.title ctx.pfxsToIgnore = false)
    (hfile : "File:".data.isPrefixOf r.title = false)
    (htmpl : "Template:".data.isPrefixOf r.title = false)
    (hcl : cleanup_mediawiki text = some (text2, cats))
    (hrd : redirectTaken text2 = false)
    (hpd : ctx.pandoc text2 = (rc, out))
    (hfail : rc ≠ 0 ∨ out = []) :
    processRecord ctx tally r
      = some ([Ev.write (make_filename r.title ctx.mwExt ctx.pfx) text2,
               Ev.pandocRun (make_filename r.title ctx.mwExt ctx.pfx) text2,
               Ev.write (make_filename r.title ctx.mwExt ctx.pfx) text,
               Ev.gitReset], [], tally)
    ∧ ([Ev.write (make_filename r.title ctx.mwExt ctx.pfx) text2,
        Ev.pandocRun (make_filename r.title ctx.mwExt ctx.pfx) text2,
        Ev.write (make_filename r.title ctx.mwExt ctx.pfx) text,
        Ev.gitReset]).filter isCommitEv = []
    ∧ (∀ fs : Str → Option Str,
        replayFS [Ev.write (make_filename r.title ctx.mwExt ctx.pfx) text2,
                  Ev.pandocRun (make_filename r.title ctx.mwExt ctx.pfx) text2,
                  Ev.write (make_filename r.title ctx.mwExt ctx.pfx) text,
                  Ev.gitReset] fs (make_filename r.title ctx.mwExt ctx.pfx)
          = some text)
    ∧ commitRunT ctx tally (r :: rest)
        = ([Ev.write (make_filename r.title ctx.mwExt ctx.pfx) text2,
            Ev.pandocRun (make_filename r.title ctx.mwExt ctx.pfx) text2,
            Ev.write (make_filename r.title ctx.mwExt ctx.pfx) text,
            Ev.gitReset] ++ (commitRunT ctx tally rest).1,
           (commitRunT ctx tally rest).2.1,
           (commitRunT ctx tally rest).2.2.1,
           (commitRunT ctx tally rest).2.2.2) := by
  have hjf : joinedFilename ctx r = none := by
    unfold joinedFilename
    rw [hfn]
  have hdump : dump_revision ctx (make_filename r.title ctx.mwExt ctx.pfx)
      (make_filename r.title ctx.mdExt ctx.pfx) text r.title r.date
      = some (false, [Ev.write (make_filename r.title ctx.mwExt ctx.pfx) text2,
                      Ev.pandocRun (make_filename r.title ctx.mwExt ctx.pfx) text2,
                      Ev.write (make_filename r.title ctx.mwExt ctx.pfx) text]) := by
    unfold dump_revision
    rw [hcl]
    dsimp only
    rw [if_neg (by simp [hrd])]
    unfold dumpRegular
    dsimp only
    rw [hpd]
    dsimp only
    rw [if_pos hfail]
  have hproc : processRecord ctx tally r
      = some ([Ev.write (make_filename r.title ctx.mwExt ctx.pfx) text2,
               Ev.pandocRun (make_filename r.title ctx.mwExt ctx.pfx) text2,
               Ev.write (make_filename r.title ctx.mwExt ctx.pfx) text,
               Ev.gitReset], [], tally) := by
    unfold processRecord
    rw [if_neg (fun hc => by rw [hct] at hc; exact Option.noConfusion hc.1)]
    rw [if_neg (by simp [hig])]
    rw [if_neg (by simp [hfile])]
    rw [if_neg (by simp [htmpl])]
    rw [if_neg (by simp [hjf])]
    rw [hct]
    dsimp only
    rw [hdump]
    rfl
  refine ⟨hproc, rfl, ?_, ?_⟩
  · intro fs
    simp [replayFS]
  · conv_lhs => unfold commitRunT
    rw [hproc]
    rfl

theorem claim_C3_transcoder_failure_witness :
    processRecord failCtx (fun _ => 0)
        ⟨"Apple".data, none, some "2020".data, [], some "__NOTOC__\nhi".data, []⟩
      = some ([Ev.write (make_filename "Apple".data failCtx.mwExt failCtx.pfx) "hi".data,
               Ev.pandocRun (make_filename "Apple".data failCtx.mwExt failCtx.pfx) "hi".data,
               Ev.write (make_filename "Apple".data failCtx.mwExt failCtx.pfx)
                 "__NOTOC__\nhi".data,
               Ev.gitReset], [], fun _ => 0)
    ∧ ([Ev.write (make_filename "Apple".data failCtx.mwExt failCtx.pfx) "hi".data,
        Ev.pandocRun (make_filename "Apple".data failCtx.mwExt failCtx.pfx) "hi".data,
        Ev.write (make_filename "Apple".data failCtx.mwExt failCtx.pfx)
          "__NOTOC__\nhi".data,
        Ev.gitReset]).filter isCommitEv = []
    ∧ replayFS [Ev.write (make_filename "Apple".data failCtx.mwExt failCtx.pfx) "hi".data,
                Ev.pandocRun (make_filename "Apple".data failCtx.mwExt failCtx.pfx) "hi".data,
                Ev.write (make_filename "Apple".data failCtx.mwExt failCtx.pfx)
                  "__NOTOC__\nhi".data,
                Ev.gitReset] (fun _ => none)
        (make_filename "Apple".data failCtx.mwExt failCtx.pfx)
      = some "__NOTOC__\nhi".data
    ∧ commitRunT failCtx (fun _ => 0)
        [⟨"Apple".data, none, some "2020".data, [], some "__NOTOC__\nhi".data, []⟩]
      = ([Ev.write (make_filename "Apple".data failCtx.mwExt failCtx.pfx) "hi".data,
          Ev.pandocRun (make_filename "Apple".data failCtx.mwExt failCtx.pfx) "hi".data,
          Ev.write (make_filename "Apple".data failCtx.mwExt failCtx.pfx)
            "__NOTOC__\nhi".data,
          Ev.gitReset] ++ (commitRunT failCtx (fun _ => 0) []).1,
         (commitRunT failCtx (fun _ => 0) []).2.1,
         (commitRunT failCtx (fun _ => 0) []).2.2.1,
         (commitRunT failCtx (fun _ => 0) []).2.2.2) := by
  have h := claim_C3_transcoder_failure failCtx (fun _ => 0)
    ⟨"Apple".data, none, some "2020".data, [], some "__NOTOC__\nhi".data, []⟩
    [] "__NOTOC__\nhi".data "hi".data [] 1 []
    rfl rfl (by decide) (by decide) (by decide) (by decide) (by decide)
    rfl (Or.inr rfl)
  exact ⟨h.1, h.2.1, h.2.2.1 (fun _ => none), h.2.2.2⟩
